import Mathlib

set_option maxRecDepth 16000

/-!
Verification of the Rubiks-Slider puzzle engine (src/ui/src/Board.jsx, embedded
game.js module, and the share-link load path of src/ui/src/App.jsx).

The JavaScript code is shallowly embedded:
* a board is a list of rows; a row is a list of cells; a cell is `Option α`
  where `none` stands for the JavaScript value `undefined` (reading a hole or
  an out-of-range array slot yields `undefined`);
* JavaScript 32-bit coercions (`x >>> 0`, `x | y`, `Math.imul`) are modelled as
  exact arithmetic modulo 2^32 on the unsigned representative;
* a thrown `TypeError` is modelled by the `MoveOutcome.thrown` constructor,
  carrying the (in-place mutated) board state at the moment of the throw;
* JSON-derived JavaScript values are modelled by the inductive `Js`
  (numbers restricted to integers: every numeric the engine produces or
  consumes through `parseInt` is an integer or `NaN`, modelled as `none`).
-/

namespace RubiksSlider

/-- JavaScript values as they appear on the share-payload decode path
(`JSON.parse` output plus `undefined`). JSON numbers are modelled as
integers; all numbers produced by the engine itself are integers. -/
inductive Js where
  | null
  | und
  | boolean (b : Bool)
  | num (v : Int)
  | str (s : String)
  | arr (elems : List Js)
  | obj (fields : List (String × Js))

/-- Strict equality of a JavaScript value with a string literal, as in
`move.type === "row"`. -/
def jsIsStr (v : Js) (s : String) : Bool :=
  match v with
  | .str t => t == s
  | _ => false

/-- Property access `v.name` on a JSON-derived value: object field lookup
(JSON.parse output has unique keys), `undefined` on everything else. -/
def getField (v : Js) (name : String) : Js :=
  match v with
  | .obj fields =>
    match fields.find? (fun f => f.1 == name) with
    | some f => f.2
    | none => .und
  | _ => .und

/-- JavaScript truthiness of a JSON-derived value. -/
def truthy (v : Js) : Bool :=
  match v with
  | .null => false
  | .und => false
  | .boolean b => b
  | .num n => n != 0
  | .str s => s != ""
  | .arr _ => true
  | .obj _ => true

/-- `Array.isArray`. -/
def isArray (v : Js) : Bool :=
  match v with
  | .arr _ => true
  | _ => false

/-- Elements of an array value (only ever used under an `isArray` guard). -/
def arrElems (v : Js) : List Js :=
  match v with
  | .arr l => l
  | _ => []

mutual
/-- JavaScript `String(v)` coercion on a JSON-derived value (`Array.prototype.join`
turns `null`/`undefined` elements into empty strings). -/
def jsToString : Js → String
  | .null => "null"
  | .und => "undefined"
  | .boolean b => if b then "true" else "false"
  | .num v => toString v
  | .str s => s
  | .arr l => String.intercalate "," (jsArrItems l)
  | .obj _ => "[object Object]"

/-- Stringification of array elements for `Array.prototype.join`. -/
def jsArrItems : List Js → List String
  | [] => []
  | .null :: rest => "" :: jsArrItems rest
  | .und :: rest => "" :: jsArrItems rest
  | e :: rest => jsToString e :: jsArrItems rest
end

/-! ## Board model

A row is a JavaScript array of cells; reading an out-of-range slot yields
`undefined` (`none`), writing past the end extends the array (holes read as
`undefined`). -/

/-- A board row: a JavaScript array whose slots hold either a tile or
`undefined`. -/
abbrev JsRow (α : Type) := List (Option α)

/-- A board: a JavaScript array of rows. -/
abbrev JsBoard (α : Type) := List (JsRow α)

/-- Read `row[i]` for a non-negative integer index: `undefined` when out of
range. -/
def jsGetN {α : Type} (row : JsRow α) (i : Nat) : Option α :=
  (row.get? i).getD none

/-- Write `row[i] = v` for a non-negative integer index: in range it updates
the slot, past the end it extends the array with holes. -/
def jsSetN {α : Type} (row : JsRow α) (i : Nat) (v : Option α) : JsRow α :=
  if i < row.length then row.set i v
  else row ++ List.replicate (i - row.length) none ++ [v]

/-- Read `row[i]` where `i` is a JavaScript number that may be `NaN` (`none`)
or negative: such keys are not array indices and read `undefined`. -/
def jsGetI {α : Type} (row : JsRow α) (i : Option Int) : Option α :=
  match i with
  | none => none
  | some i => if i < 0 then none else jsGetN row i.toNat

/-- Write `row[i] = v` where `i` may be `NaN` or negative. A negative or `NaN`
key stores a plain object property, leaving the array contents untouched; the
engine only ever writes `undefined` under such keys, so dropping the write is
observationally exact. -/
def jsSetI {α : Type} (row : JsRow α) (i : Option Int) (v : Option α) : JsRow α :=
  match i with
  | none => row
  | some i => if i < 0 then row else jsSetN row i.toNat v

/-- Read `board[i]` (a row or `undefined`) for a possibly `NaN`/negative
index. -/
def rowAt {α : Type} (b : JsBoard α) (i : Option Int) : Option (JsRow α) :=
  match i with
  | none => none
  | some i => if i < 0 then none else b.get? i.toNat

/-- Write `board[i] = row`; only used after `rowAt` succeeded, hence always in
range. -/
def setRowAt {α : Type} (b : JsBoard α) (i : Option Int) (row : JsRow α) : JsBoard α :=
  match i with
  | none => b
  | some i => if i < 0 then b else b.set i.toNat row

/-- Observation function for theorem statements: the cell of `board[r][c]`
(`undefined` when out of range). -/
def cellAt {α : Type} (b : JsBoard α) (r c : Nat) : Option α :=
  jsGetN ((b.get? r).getD []) c

/-! ## Moves and the move engine (game.js `applyMove` / `applySequence`) -/

/-- A move object as the engine receives it. All in-repo producers (the drag
handler, the deterministic generator, the share decoder) build `type` and
`direction` as strings or arbitrary JSON values, and `index` as an integer or
`NaN` (from `parseInt`), modelled as `none`. -/
structure JsMove where
  type : Js
  index : Option Int
  direction : Js

/-- Result of running a JavaScript procedure that mutates the board in place:
normal completion, or a thrown `TypeError` with the board state at the
throw. -/
inductive MoveOutcome (α : Type) where
  | ok (b : JsBoard α)
  | thrown (b : JsBoard α)
deriving DecidableEq

/-- Body of the `"row"`/`"left"` branch of `applyMove`:
`first = row[0]; for (c = 0; c < n-1; c++) row[c] = row[c+1]; row[n-1] = first`.
Only invoked with `n = board.length ≥ 1` (the row exists). -/
def rowLeftJs {α : Type} (n : Nat) (row : JsRow α) : JsRow α :=
  let first := jsGetN row 0
  let row' := (List.range (n - 1)).foldl (fun r c => jsSetN r c (jsGetN r (c + 1))) row
  jsSetN row' (n - 1) first

/-- Body of the `"row"`/`"right"` branch of `applyMove`:
`last = row[n-1]; for (c = n-1; c > 0; c--) row[c] = row[c-1]; row[0] = last`. -/
def rowRightJs {α : Type} (n : Nat) (row : JsRow α) : JsRow α :=
  let last := jsGetN row (n - 1)
  let row' := (List.range (n - 1)).reverse.foldl (fun r k => jsSetN r (k + 1) (jsGetN r k)) row
  jsSetN row' 0 last

/-- Body of the `"column"`/`"up"` branch of `applyMove`:
`first = board[0][idx]; for (r = 0; r < n-1; r++) board[r][idx] = board[r+1][idx];
board[n-1][idx] = first`. Only invoked with `n = board.length ≥ 1`. -/
def colUpJs {α : Type} (b : JsBoard α) (idx : Option Int) : JsBoard α :=
  let n := b.length
  let first := jsGetI ((b.get? 0).getD []) idx
  let b' := (List.range (n - 1)).foldl
    (fun bb r =>
      bb.set r (jsSetI ((bb.get? r).getD []) idx (jsGetI ((bb.get? (r + 1)).getD []) idx))) b
  b'.set (n - 1) (jsSetI ((b'.get? (n - 1)).getD []) idx first)

/-- Body of the `"column"`/`"down"` branch of `applyMove`:
`last = board[n-1][idx]; for (r = n-1; r > 0; r--) board[r][idx] = board[r-1][idx];
board[0][idx] = last`. -/
def colDownJs {α : Type} (b : JsBoard α) (idx : Option Int) : JsBoard α :=
  let n := b.length
  let last := jsGetI ((b.get? (n - 1)).getD []) idx
  let b' := (List.range (n - 1)).reverse.foldl
    (fun bb k =>
      bb.set (k + 1) (jsSetI ((bb.get? (k + 1)).getD []) idx (jsGetI ((bb.get? k).getD []) idx))) b
  b'.set 0 (jsSetI ((b'.get? 0).getD []) idx last)

/-- game.js `applyMove(board, move)`: one-cell wrap-around shift, mutating in
place. A move whose type or direction matches no branch falls through and
returns normally. A row move whose index is out of range reads
`board[idx][0]` (or `[n-1]`) on `undefined` and throws before any write; a
column move on an empty board reads `board[0][idx]` on `undefined` and
throws. -/
def applyMove {α : Type} (b : JsBoard α) (m : JsMove) : MoveOutcome α :=
  let n := b.length
  let idx := m.index.map (fun i => i - 1)
  if jsIsStr m.type "row" then
    if jsIsStr m.direction "left" then
      match rowAt b idx with
      | none => .thrown b
      | some row => .ok (setRowAt b idx (rowLeftJs n row))
    else if jsIsStr m.direction "right" then
      match rowAt b idx with
      | none => .thrown b
      | some row => .ok (setRowAt b idx (rowRightJs n row))
    else .ok b
  else if jsIsStr m.type "column" then
    if jsIsStr m.direction "up" then
      if n = 0 then .thrown b else .ok (colUpJs b idx)
    else if jsIsStr m.direction "down" then
      if n = 0 then .thrown b else .ok (colDownJs b idx)
    else .ok b
  else .ok b

/-- The board state `applyMove` leaves behind, whether it returned or threw. -/
def applyMove1 {α : Type} (b : JsBoard α) (m : JsMove) : JsBoard α :=
  match applyMove b m with
  | .ok b' => b'
  | .thrown b' => b'

/-- game.js `applySequence(board, seq)`: `for (const m of seq) applyMove(board, m)`.
A throw inside `applyMove` propagates, abandoning the rest of the sequence. -/
def applySequence {α : Type} (b : JsBoard α) (seq : List JsMove) : MoveOutcome α :=
  match seq with
  | [] => .ok b
  | m :: rest =>
    match applyMove b m with
    | .ok b' => applySequence b' rest
    | .thrown b' => .thrown b'

/-! ## Board construction (game.js `solvedLetters` / `buildTileBoard`) -/

/-- A tile: `{ id, letter }`. -/
structure Tile where
  id : Nat
  letter : Char
deriving DecidableEq, Repr

/-- game.js `solvedLetters(size)`: row `r` is `size` copies of
`String.fromCharCode(65 + r)`. -/
def solvedLetters (size : Nat) : List (List Char) :=
  (List.range size).map (fun r => List.replicate size (Char.ofNat (65 + r)))

/-- game.js `buildTileBoard(size, lettersGrid)`: ids `1..size²` assigned
row-major. All in-repo call sites pass a `size × size` grid; an out-of-range
grid lookup (unreachable from those call sites) is mapped to an empty cell. -/
def buildTileBoard (size : Nat) (lettersGrid : List (List Char)) : JsBoard Tile :=
  (List.range size).map (fun r =>
    (List.range size).map (fun c =>
      match (lettersGrid.get? r).bind (fun row => row.get? c) with
      | some ch => some ⟨r * size + c + 1, ch⟩
      | none => none))

/-! ## Validity predicates (spec §3 domains) -/

/-- A well-formed `N×N` board: `N` rows of `N` occupied cells. -/
def ValidBoard {α : Type} (n : Nat) (b : JsBoard α) : Prop :=
  b.length = n ∧ ∀ row ∈ b, row.length = n ∧ ∀ cell ∈ row, cell.isSome = true

instance {α : Type} (n : Nat) (b : JsBoard α) : Decidable (ValidBoard n b) := by
  unfold ValidBoard; infer_instance

/-- Spec §3: a well-formed move — `type` row/column, direction from the valid
set for the type, 1-based integer index in `[1, n]`. -/
def wellFormedMove (n : Nat) (m : JsMove) : Bool :=
  (jsIsStr m.type "row" && (jsIsStr m.direction "left" || jsIsStr m.direction "right")
    || jsIsStr m.type "column" && (jsIsStr m.direction "up" || jsIsStr m.direction "down"))
  && (match m.index with
      | some i => decide (1 ≤ i) && decide (i ≤ (n : Int))
      | none => false)

/-- Propositional form of `wellFormedMove`. -/
def ValidMove (n : Nat) (m : JsMove) : Prop :=
  wellFormedMove n m = true

instance (n : Nat) (m : JsMove) : Decidable (ValidMove n m) := by
  unfold ValidMove; infer_instance

/-- A move that matches no branch of `applyMove`: its type is not
`"row"`/`"column"`, or its direction is invalid for its type. -/
def BadTypeOrDir (m : JsMove) : Prop :=
  (jsIsStr m.type "row" = true ∧ jsIsStr m.direction "left" = false ∧
    jsIsStr m.direction "right" = false)
  ∨ (jsIsStr m.type "column" = true ∧ jsIsStr m.direction "up" = false ∧
    jsIsStr m.direction "down" = false)
  ∨ (jsIsStr m.type "row" = false ∧ jsIsStr m.type "column" = false)

instance (m : JsMove) : Decidable (BadTypeOrDir m) := by
  unfold BadTypeOrDir; infer_instance

/-- Direction inverse on the same line (spec §4.3: left/right and up/down are
mutual inverses). -/
def inverseMove (m : JsMove) : JsMove :=
  { m with direction :=
      if jsIsStr m.direction "left" then Js.str "right"
      else if jsIsStr m.direction "right" then Js.str "left"
      else if jsIsStr m.direction "up" then Js.str "down"
      else if jsIsStr m.direction "down" then Js.str "up"
      else m.direction }

/-! ## Deterministic RNG (game.js `hash32`, `mulberry32`, `rngFromSeedString`)

JavaScript bitwise operators coerce through `ToInt32`/`ToUint32`; on the
unsigned representative these are exact arithmetic modulo `2^32`. The
`mulberry32` state `a` is a float that grows by a constant without wrapping;
additions stay exact (below `2^53`) for far more draws than the engine ever
makes (at most `3 · count ≤ 3 · 288` per stream), so it is modelled as an
unbounded natural. Floats only reach the outputs through
`Math.floor(r() * (max-min+1))` with `max-min+1 ≤ 277`, where the products
stay below `2^41` and are therefore exact; the floor is natural division. -/

/-- Wrap-around modulus for 32-bit coercions. -/
def TWO32 : Nat := 4294967296

/-- UTF-16 code units of a character, as `charCodeAt` enumerates them. -/
def utf16Units (c : Char) : List Nat :=
  let n := c.toNat
  if n < 65536 then [n]
  else
    let m := n - 65536
    [55296 + m / 1024, 56320 + m % 1024]

/-- UTF-16 code units of a string. -/
def strUnits (s : String) : List Nat :=
  s.data.flatMap utf16Units

/-- One `charCodeAt` step of game.js `hash32`:
`h = (((h << 5) + h) ^ c) >>> 0`, with `<<` and `^` coercing through 32-bit
integers. -/
def hash32Step (h c : Nat) : Nat :=
  Nat.xor ((h * 32 % TWO32 + h) % TWO32) c

/-- game.js `hash32(str)`: iterative djb2-family string hash, starting from
`5381 >>> 0`. -/
def hash32 (s : String) : Nat :=
  (strUnits s).foldl hash32Step 5381

/-- The hash recurrence as the spec words it: `h := (h * 33) XOR charCode`,
every intermediate step wrapping at exactly 32 bits, from 5381. -/
def hash32Spec (s : String) : Nat :=
  (strUnits s).foldl (fun h c => Nat.xor (h * 33 % TWO32) c % TWO32) 5381

/-- One call of the closure returned by game.js `mulberry32(a)`: returns the
advanced state and the 32-bit numerator `k` of the output `k / 2^32`. -/
def mulberry32Next (a : Nat) : Nat × Nat :=
  let a' := a + 1831565813
  let t0 := a' % TWO32
  let t1 := Nat.xor t0 (t0 >>> 15) * (t0 ||| 1) % TWO32
  let m := Nat.xor t1 (t1 >>> 7) * (t1 ||| 61) % TWO32
  let t2 := Nat.xor t1 ((t1 + m) % TWO32)
  (a', Nat.xor t2 (t2 >>> 14))

/-- `rngFromSeedString(...).randint(min, max)` on an explicit stream state:
`Math.floor(r() * (max - min + 1)) + min`. -/
def randint (a min max : Nat) : Nat × Nat :=
  let (a', k) := mulberry32Next a
  (a', k * (max - min + 1) / TWO32 + min)

/-- Index drawn by `rngFromSeedString(...).choice(arr)`:
`Math.floor(r() * arr.length)`. -/
def choiceIdx (k len : Nat) : Nat :=
  k * len / TWO32

/-- game.js `getDeterministicShuffleCount(size)`:
`randint(size, size*size*2)` from the stream seeded by
`"ShuffleCount_v{VERSION}_{size}"`. `VERSION` is a module-level string,
taken here as an explicit parameter. -/
def getDeterministicShuffleCount (version : String) (size : Nat) : Nat :=
  let a0 := hash32 ("ShuffleCount_v" ++ version ++ "_" ++ toString size)
  (randint a0 size (size * size * 2)).2

/-- Loop body of `generateDeterministicSequence`: per move, draws in order
`type = choice(["row","column"])`, `index = randint(1, size)`,
`direction = choice(["left","right"])` or `choice(["up","down"])`. A choice
over a two-element array selects element 0 or 1 by `choiceIdx k 2`. -/
def genMoves (size : Nat) : Nat → Nat → List JsMove
  | _, 0 => []
  | a, count + 1 =>
    let (a1, k1) := mulberry32Next a
    let tyRow := choiceIdx k1 2 = 0
    let (a2, k2) := mulberry32Next a1
    let index := k2 * size / TWO32 + 1
    let (a3, k3) := mulberry32Next a2
    let dir : String :=
      if tyRow then (if choiceIdx k3 2 = 0 then "left" else "right")
      else (if choiceIdx k3 2 = 0 then "up" else "down")
    ⟨Js.str (if tyRow then "row" else "column"), some (Int.ofNat index), Js.str dir⟩
      :: genMoves size a3 count

/-- game.js `generateDeterministicSequence(size, moves, salt)`: count is
`moves` when non-null, else the deterministic shuffle count; the move stream
is seeded by `"Benchmark_v{VERSION}_{size}{salt}"`. -/
def generateDeterministicSequence (version : String) (size : Nat)
    (moves : Option Nat) (salt : String) : List JsMove :=
  let count :=
    match moves with
    | some m => m
    | none => getDeterministicShuffleCount version size
  let a0 := hash32 ("Benchmark_v" ++ version ++ "_" ++ toString size ++ salt)
  genMoves size a0 count

/-! ## Query parsing (game.js `clampInt` / `parseQuery`) -/

/-- Whitespace skipped by JavaScript `parseInt` (the common StrWhiteSpace
characters). -/
def isJsSpace (c : Char) : Bool :=
  c = ' ' || c = '\t' || c = '\n' || c = '\r' || c = '\x0b' || c = '\x0c'
    || c = '\u00A0' || c = '\uFEFF'

/-- Decimal value of a leading digit run; `none` when it is empty. The
engine only parses short numerals, far below the float-precision limit of
`parseInt`. -/
def digitsVal (cs : List Char) : Option Nat :=
  let ds := cs.takeWhile (fun c => c.isDigit)
  if ds = [] then none
  else some (ds.foldl (fun a c => 10 * a + (c.toNat - 48)) 0)

/-- JavaScript `parseInt(s, 10)`: skip leading whitespace, optional sign,
longest leading digit run; `NaN` (`none`) when no digits follow. -/
def jsParseInt (s : String) : Option Int :=
  match s.data.dropWhile isJsSpace with
  | '-' :: rest => (digitsVal rest).map (fun v => -(v : Int))
  | '+' :: rest => (digitsVal rest).map (fun v => (v : Int))
  | cs => (digitsVal cs).map (fun v => (v : Int))

/-- game.js `clampInt(n, lo, hi)`: `lo` on `NaN`, else
`Math.max(lo, Math.min(hi, n))`. -/
def clampInt (n : Option Int) (lo hi : Int) : Int :=
  match n with
  | none => lo
  | some v => max lo (min hi v)

/-- The `size` component of game.js `parseQuery`:
`clampInt(parseInt(params.get("size") || "6", 10), 2, 12)`. The argument is
what `params.get("size")` returns: `null` (`none`) when the query has no
`size` key, the raw value otherwise; `""` is falsy, so `|| "6"` replaces it
with the default. -/
def parseQuerySize (sizeParam : Option String) : Int :=
  clampInt
    (jsParseInt
      (match sizeParam with
       | none => "6"
       | some s => if s = "" then "6" else s))
    2 12

/-- The board size actually used by App.jsx after parsing: the clamped value
as a natural number (it is always ≥ 2). -/
def parseQuerySizeNat (sizeParam : Option String) : Nat :=
  (parseQuerySize sizeParam).toNat

/-! ## Share-payload load path (App.jsx effect, lines 321–345)

App.jsx runs `JSON.parse(fromBase64Url(p))` inside `try`, checks
`decoded && decoded.size === n && Array.isArray(decoded.seq)`, maps each
element `m` to `{type: m.type, index: parseInt(m.index, 10), direction:
m.direction}` and replays the sequence onto a fresh solved board; any throw
(including one raised by `applySequence`) or failed check falls through to
`generateDeterministicSequence`. App.jsx builds its board with
`solvedNumbers`, a value-grid builder not under src/; the letters grid
builder from game.js is used here — acceptance only depends on the board
shape, which is the same `n × n`. -/

/-- Strict equality test `decoded.size === n` where `n` is a number. -/
def sizeMatches (v : Js) (n : Nat) : Bool :=
  match v with
  | .num k => k == (n : Int)
  | _ => false

/-- The move record App.jsx builds from one decoded `seq` element. -/
def mapSharedMove (m : Js) : JsMove :=
  { type := getField m "type"
  , index := jsParseInt (jsToString (getField m "index"))
  , direction := getField m "direction" }

/-- The share-load decision of App.jsx for requested size `n` and decoded
payload value: `some seq` when the payload is used, `none` when the caller
falls back to the deterministic generator. -/
def shareLoad (n : Nat) (decoded : Js) : Option (List JsMove) :=
  if truthy decoded && sizeMatches (getField decoded "size") n
      && isArray (getField decoded "seq") then
    let seq := (arrElems (getField decoded "seq")).map mapSharedMove
    match applySequence (buildTileBoard n (solvedLetters n)) seq with
    | .ok _ => some seq
    | .thrown _ => none
  else none

/-! ## Base64-URL codec (game.js `toBase64Url` / `fromBase64Url`)

Strings are modelled as their UTF-16 code-unit sequences (`List Nat`), which
is what `btoa`/`atob` and `charCodeAt` operate on. `btoa` throws when any
unit exceeds 255 (modelled as `none`); `atob` implements forgiving-base64
decoding on whitespace-free input (the only input the codec ever hands it),
discarding leftover bits as the WHATWG algorithm does. -/

/-- Standard base64 alphabet: code of the digit for sextet `s < 64`. -/
def b64alpha (s : Nat) : Nat :=
  if s < 26 then 65 + s
  else if s < 52 then 97 + (s - 26)
  else if s < 62 then 48 + (s - 52)
  else if s = 62 then 43
  else 47

/-- Inverse of the base64 alphabet: `none` on a character outside it. -/
def b64val (c : Nat) : Option Nat :=
  if 65 ≤ c ∧ c ≤ 90 then some (c - 65)
  else if 97 ≤ c ∧ c ≤ 122 then some (c - 97 + 26)
  else if 48 ≤ c ∧ c ≤ 57 then some (c - 48 + 52)
  else if c = 43 then some 62
  else if c = 47 then some 63
  else none

/-- Base64 encoding of a byte sequence, with `=` (code 61) padding. -/
def b64enc : List Nat → List Nat
  | [] => []
  | [b1] => [b64alpha (b1 / 4), b64alpha (b1 % 4 * 16), 61, 61]
  | [b1, b2] => [b64alpha (b1 / 4), b64alpha (b1 % 4 * 16 + b2 / 16),
      b64alpha (b2 % 16 * 4), 61]
  | b1 :: b2 :: b3 :: rest =>
    b64alpha (b1 / 4) :: b64alpha (b1 % 4 * 16 + b2 / 16)
      :: b64alpha (b2 % 16 * 4 + b3 / 64) :: b64alpha (b3 % 64) :: b64enc rest

/-- `window.btoa`: throws (`none`) when a code unit exceeds 255, else the
base64 digits of the byte string. -/
def jsBtoa (units : List Nat) : Option (List Nat) :=
  if units.all (fun u => u < 256) then some (b64enc units) else none

/-- Group loop of `window.atob` on whitespace-free input: four digits at a
time, with `=` padding allowed only in the final group; leftover bits are
discarded (forgiving-base64). -/
def atobGroups : List Nat → Option (List Nat)
  | [] => some []
  | c1 :: c2 :: c3 :: c4 :: rest =>
    match b64val c1, b64val c2 with
    | some v1, some v2 =>
      if c3 = 61 && c4 = 61 && rest.isEmpty then
        some [v1 * 4 + v2 / 16]
      else if c4 = 61 && rest.isEmpty then
        match b64val c3 with
        | some v3 => some [v1 * 4 + v2 / 16, v2 % 16 * 16 + v3 / 4]
        | none => none
      else
        match b64val c3, b64val c4, atobGroups rest with
        | some v3, some v4, some bytes =>
          some ((v1 * 4 + v2 / 16) :: (v2 % 16 * 16 + v3 / 4) :: (v3 % 4 * 64 + v4) :: bytes)
        | _, _, _ => none
    | _, _ => none
  | _ => none

/-- The character remapping of `toBase64Url`: every plus becomes a dash,
every slash becomes an underscore. -/
def urlChar (c : Nat) : Nat :=
  if c = 43 then 45 else if c = 47 then 95 else c

/-- The inverse remapping of `fromBase64Url`: every dash becomes a plus,
every underscore becomes a slash. -/
def stdChar (c : Nat) : Nat :=
  if c = 45 then 43 else if c = 95 then 47 else c

/-- The padding strip of `toBase64Url`: remove the trailing run of `=`. -/
def stripPad (l : List Nat) : List Nat :=
  (l.reverse.dropWhile (fun c => c == 61)).reverse

/-- game.js `toBase64Url(str)`: `btoa`, `+`/`/` remapped to `-`/`_`, trailing
`=` stripped. `none` models the `btoa` throw on non-byte input. -/
def toBase64Url (units : List Nat) : Option (List Nat) :=
  (jsBtoa units).map (fun b => stripPad (b.map urlChar))

/-- game.js `fromBase64Url(b64url)`: restore padding to a multiple of four,
undo the alphabet remapping, `atob`. `none` models the `atob` throw. -/
def fromBase64Url (l : List Nat) : Option (List Nat) :=
  let pad := (4 - l.length % 4) % 4
  atobGroups (l.map stdChar ++ List.replicate pad 61)

/-! ## Share-payload codec (spec §4.5 SequenceCodec)

The repository's encoder (`JSON.stringify` of `{size, seq}` fed to
`toBase64Url`) and the JSON text parser behind `JSON.parse` are browser
built-ins / code not under src/; both are modelled from the spec below. -/

/-- A move record of a SharePayload (spec §3 Move). -/
structure SpecMove where
  type : String
  index : Nat
  direction : String
deriving DecidableEq, Repr

/-- Spec §3: `SharePayload = \x7bsize: int, seq: ShuffleSequence\x7d`. -/
structure SharePayload where
  size : Nat
  seq : List SpecMove
deriving DecidableEq, Repr

/-- Spec §3 domains for one move of a payload of size `n`. -/
def specMoveOk (n : Nat) (m : SpecMove) : Bool :=
  ((m.type == "row") && ((m.direction == "left") || (m.direction == "right"))
    || (m.type == "column") && ((m.direction == "up") || (m.direction == "down")))
  && (1 ≤ m.index) && (m.index ≤ n)

/-- The move-domain facts the round-trip proofs need about one move. -/
def MoveWf (m : SpecMove) : Prop :=
  (m.type = "row" ∨ m.type = "column") ∧
    (m.direction = "left" ∨ m.direction = "right" ∨
      m.direction = "up" ∨ m.direction = "down") ∧
    m.index < 13

/-- Spec §4.5 shape validation: `size` an integer in `[2,12]`, every move
within the §3 domains. -/
def payloadOk (p : SharePayload) : Bool :=
  (2 ≤ p.size) && (p.size ≤ 12) && p.seq.all (specMoveOk p.size)

/-- ASCII code units of a Lean string literal (all serializer output is
ASCII). -/
def strBytes (s : String) : List Nat :=
  s.data.map Char.toNat

/-- Modelled from the spec: the canonical JSON text of one move, as
`JSON.stringify` lays it out with keys in insertion order
(`type`, `index`, `direction`). -/
def moveJson (m : SpecMove) : List Nat :=
  strBytes "\x7b\"type\":\"" ++ strBytes m.type
    ++ strBytes "\",\"index\":" ++ strBytes (toString m.index)
    ++ strBytes ",\"direction\":\"" ++ strBytes m.direction ++ strBytes "\"\x7d"

/-- Modelled from the spec: the canonical JSON text of a SharePayload,
`\x7b"size":N,"seq":[...]\x7d`. -/
def payloadJson (p : SharePayload) : List Nat :=
  strBytes "\x7b\"size\":" ++ strBytes (toString p.size)
    ++ strBytes ",\"seq\":[" ++ List.intercalate [44] (p.seq.map moveJson)
    ++ strBytes "]\x7d"

/-- Modelled from the spec: `encode(payload)` — canonical text serialization
transformed by the URL-safe alphabet remap of game.js `toBase64Url`. `none`
is unreachable for valid payloads (their text is ASCII). -/
def encodeShare (p : SharePayload) : Option (List Nat) :=
  toBase64Url (payloadJson p)

/-- Expect a literal byte sequence at the head of the input. -/
def parseLit (lit input : List Nat) : Option (List Nat) :=
  if input.take lit.length = lit then some (input.drop lit.length) else none

/-- Parse a non-empty leading decimal digit run. -/
def parseNatBytes (input : List Nat) : Option (Nat × List Nat) :=
  let ds := input.takeWhile (fun c => 48 ≤ c && c ≤ 57)
  if ds.isEmpty then none
  else some (ds.foldl (fun a c => 10 * a + (c - 48)) 0,
    input.dropWhile (fun c => 48 ≤ c && c ≤ 57))

/-- Parse the body of a JSON string up to its closing quote (the payload
grammar never contains escapes). -/
def parseQuoted : List Nat → Option (List Nat × List Nat)
  | [] => none
  | c :: rest =>
    if c = 34 then some ([], rest)
    else (parseQuoted rest).map (fun sr => (c :: sr.1, sr.2))

/-- ASCII bytes back to a string (inverse of `strBytes` on ASCII input). -/
def bytesToStr (bytes : List Nat) : String :=
  String.mk (bytes.map Char.ofNat)

/-- Modelled from the spec: parse one serialized move object. -/
def parseMove (input : List Nat) : Option (SpecMove × List Nat) :=
  (parseLit (strBytes "\x7b\"type\":\"") input).bind (fun r1 =>
  (parseQuoted r1).bind (fun tyr =>
  (parseLit (strBytes ",\"index\":") tyr.2).bind (fun r3 =>
  (parseNatBytes r3).bind (fun idxr =>
  (parseLit (strBytes ",\"direction\":\"") idxr.2).bind (fun r5 =>
  (parseQuoted r5).bind (fun dirr =>
  (parseLit (strBytes "\x7d") dirr.2).map (fun r7 =>
    (⟨bytesToStr tyr.1, idxr.1, bytesToStr dirr.1⟩, r7))))))))

/-- Modelled from the spec: parse the comma-separated move list after a first
move has been found, consuming the closing bracket. Fuel bounds the number of
moves; the caller passes the input length, an upper bound. -/
def parseMovesAux : Nat → List Nat → Option (List SpecMove × List Nat)
  | 0, _ => none
  | fuel + 1, input =>
    (parseMove input).bind (fun mr =>
      match mr.2 with
      | 44 :: r' => (parseMovesAux fuel r').map (fun msr => (mr.1 :: msr.1, msr.2))
      | 93 :: r' => some ([mr.1], r')
      | _ => none)

/-- Modelled from the spec: parse the move list of the `seq` array, consuming
the closing bracket. An immediately closing bracket is the empty sequence. -/
def parseSeq (input : List Nat) : Option (List SpecMove × List Nat) :=
  if input.take 1 = [93] then some ([], input.drop 1)
  else parseMovesAux input.length input

/-- Modelled from the spec: reverse of the text serialization plus the §4.5
shape validation; `none` is the decode failure. -/
def parsePayload (bytes : List Nat) : Option SharePayload :=
  (parseLit (strBytes "\x7b\"size\":") bytes).bind (fun r1 =>
  (parseNatBytes r1).bind (fun szr =>
  (parseLit (strBytes ",\"seq\":[") szr.2).bind (fun r3 =>
  (parseSeq r3).bind (fun seqr =>
  (parseLit (strBytes "\x7d") seqr.2).bind (fun r5 =>
    if r5.isEmpty && payloadOk ⟨szr.1, seqr.1⟩ then some ⟨szr.1, seqr.1⟩
    else none)))))

/-- Modelled from the spec: `decode(string)` — restore padding and alphabet
(game.js `fromBase64Url`), then reverse the text serialization and validate
shape. -/
def decodeShare (l : List Nat) : Option SharePayload :=
  (fromBase64Url l).bind parsePayload

/-! ## Lemmas: JavaScript array cells -/

theorem length_jsSetN_of_lt {α : Type} (row : JsRow α) (i : Nat) (v : Option α)
    (h : i < row.length) : (jsSetN row i v).length = row.length := by
  simp [jsSetN, h]

theorem jsGetN_jsSetN_self {α : Type} (row : JsRow α) (i : Nat) (v : Option α) :
    jsGetN (jsSetN row i v) i = v := by
  unfold jsGetN jsSetN
  simp only [List.get?_eq_getElem?]
  by_cases h : i < row.length
  · simp [h, List.getElem?_set_self h]
  · simp only [h, if_false, List.append_assoc]
    rw [List.getElem?_append_right (by omega)]
    rw [List.getElem?_append_right (by simp only [List.length_replicate]; omega)]
    simp only [List.length_replicate]
    have : i - row.length - (i - row.length) = 0 := by omega
    simp [this]

theorem jsGetN_jsSetN_ne {α : Type} (row : JsRow α) (i j : Nat) (v : Option α)
    (h : i ≠ j) : jsGetN (jsSetN row i v) j = jsGetN row j := by
  unfold jsGetN jsSetN
  simp only [List.get?_eq_getElem?]
  by_cases hi : i < row.length
  · simp [hi, List.getElem?_set_ne h]
  · simp only [hi, if_false, List.append_assoc]
    by_cases hj : j < row.length
    · rw [List.getElem?_append_left hj]
    · rw [List.getElem?_append_right (by omega)]
      rw [List.getElem?_eq_none (show row.length ≤ j by omega)]
      rcases Nat.lt_or_ge (j - row.length) (i - row.length) with hlt | hge
      · rw [List.getElem?_append_left (by simpa using hlt)]
        simp [List.getElem?_replicate, hlt]
      · rw [List.getElem?_append_right (by simpa using hge)]
        have hlen : (List.replicate (i - row.length) (none : Option α)).length = i - row.length :=
          List.length_replicate _ _
        rw [List.getElem?_eq_none (by rw [hlen, List.length_singleton]; omega)]

theorem jsGetN_eq_none_of_le {α : Type} (row : JsRow α) (j : Nat)
    (h : row.length ≤ j) : jsGetN row j = none := by
  simp [jsGetN, List.get?_eq_getElem?, List.getElem?_eq_none h]

theorem get?_set_self {β : Type} (l : List β) (i : Nat) (v : β) (h : i < l.length) :
    (l.set i v).get? i = some v := by
  simp [List.get?_eq_getElem?, List.getElem?_set_self h]

theorem get?_set_ne {β : Type} (l : List β) (i j : Nat) (v : β) (h : i ≠ j) :
    (l.set i v).get? j = l.get? j := by
  simp [List.get?_eq_getElem?, List.getElem?_set_ne h]

/-! ## Lemmas: row shifts -/

theorem rowLeft_fold_invariant {α : Type} (row : JsRow α) (n k : Nat)
    (hrow : row.length = n) (hk : k ≤ n - 1) :
    ((List.range k).foldl (fun r c => jsSetN r c (jsGetN r (c + 1))) row).length = n ∧
      ∀ j, jsGetN ((List.range k).foldl (fun r c => jsSetN r c (jsGetN r (c + 1))) row) j =
        if j < k then jsGetN row (j + 1) else jsGetN row j := by
  induction k with
  | zero => simp [hrow]
  | succ k ih =>
    obtain ⟨ihlen, ihget⟩ := ih (by omega)
    rw [List.range_succ, List.foldl_append]
    set F := (List.range k).foldl (fun r c => jsSetN r c (jsGetN r (c + 1))) row with hF
    simp only [List.foldl_cons, List.foldl_nil]
    have hkF : k < F.length := by omega
    constructor
    · rw [length_jsSetN_of_lt _ _ _ hkF, ihlen]
    · intro j
      by_cases hj : j = k
      · subst hj
        rw [jsGetN_jsSetN_self]
        have := ihget (j + 1)
        rw [if_neg (by omega)] at this
        rw [this, if_pos (by omega)]
      · rw [jsGetN_jsSetN_ne _ _ _ _ (fun hh => hj hh.symm), ihget j]
        by_cases hjk : j < k
        · rw [if_pos hjk, if_pos (by omega)]
        · rw [if_neg hjk, if_neg (by omega)]

theorem rowLeftJs_length {α : Type} (row : JsRow α) (n : Nat)
    (hrow : row.length = n) (hn : 1 ≤ n) : (rowLeftJs n row).length = n := by
  obtain ⟨hlen, _⟩ := rowLeft_fold_invariant row n (n - 1) hrow (le_refl _)
  unfold rowLeftJs
  rw [length_jsSetN_of_lt _ _ _ (by omega), hlen]

theorem jsGetN_rowLeftJs {α : Type} (row : JsRow α) (n j : Nat)
    (hrow : row.length = n) (hn : 1 ≤ n) (hj : j < n) :
    jsGetN (rowLeftJs n row) j = jsGetN row ((j + 1) % n) := by
  obtain ⟨hlen, hget⟩ := rowLeft_fold_invariant row n (n - 1) hrow (le_refl _)
  unfold rowLeftJs
  by_cases hlast : j = n - 1
  · subst hlast
    rw [jsGetN_jsSetN_self, Nat.sub_add_cancel hn, Nat.mod_self]
  · rw [jsGetN_jsSetN_ne _ _ _ _ (fun hh => hlast hh.symm), hget j, if_pos (by omega),
      Nat.mod_eq_of_lt (by omega)]

theorem rowRight_fold_invariant {α : Type} (n : Nat) :
    ∀ (k : Nat) (row : JsRow α), row.length = n → k ≤ n - 1 →
    (((List.range k).reverse.foldl (fun r c => jsSetN r (c + 1) (jsGetN r c)) row).length = n ∧
      ∀ j, jsGetN ((List.range k).reverse.foldl (fun r c => jsSetN r (c + 1) (jsGetN r c)) row) j =
        if 1 ≤ j ∧ j ≤ k then jsGetN row (j - 1) else jsGetN row j) := by
  intro k
  induction k with
  | zero =>
    intro row hrow _
    refine ⟨by simpa using hrow, fun j => ?_⟩
    simp only [List.range_zero, List.reverse_nil, List.foldl_nil]
    rw [if_neg (by omega)]
  | succ k ih =>
    intro row hrow hk
    have hrev : (List.range (k + 1)).reverse = k :: (List.range k).reverse := by
      rw [List.range_succ, List.reverse_append, List.reverse_singleton]
      rfl
    rw [hrev]
    simp only [List.foldl_cons]
    set W := jsSetN row (k + 1) (jsGetN row k) with hW
    have hWlen : W.length = n := by
      rw [hW, length_jsSetN_of_lt _ _ _ (by omega), hrow]
    obtain ⟨ihlen, ihget⟩ := ih W hWlen (by omega)
    refine ⟨ihlen, fun j => ?_⟩
    rw [ihget j]
    have hWget : ∀ m, m ≠ k + 1 → jsGetN W m = jsGetN row m := by
      intro m hm
      rw [hW, jsGetN_jsSetN_ne _ _ _ _ (fun hh => hm hh.symm)]
    by_cases h1 : 1 ≤ j ∧ j ≤ k
    · rw [if_pos h1, if_pos (by omega), hWget (j - 1) (by omega)]
    · by_cases h2 : j = k + 1
      · subst h2
        rw [if_neg h1, if_pos (by omega), hW, jsGetN_jsSetN_self]
        congr 1
      · rw [if_neg h1, if_neg (by omega), hWget j h2]

theorem rowRightJs_length {α : Type} (row : JsRow α) (n : Nat)
    (hrow : row.length = n) (hn : 1 ≤ n) : (rowRightJs n row).length = n := by
  obtain ⟨hlen, _⟩ := rowRight_fold_invariant n (n - 1) row hrow (le_refl _)
  unfold rowRightJs
  rw [length_jsSetN_of_lt _ _ _ (by omega), hlen]

theorem jsGetN_rowRightJs {α : Type} (row : JsRow α) (n j : Nat)
    (hrow : row.length = n) (hn : 1 ≤ n) (hj : j < n) :
    jsGetN (rowRightJs n row) j = jsGetN row ((j + (n - 1)) % n) := by
  obtain ⟨hlen, hget⟩ := rowRight_fold_invariant n (n - 1) row hrow (le_refl _)
  unfold rowRightJs
  by_cases h0 : j = 0
  · subst h0
    rw [jsGetN_jsSetN_self, Nat.zero_add, Nat.mod_eq_of_lt (by omega)]
  · rw [jsGetN_jsSetN_ne _ _ _ _ (fun hh => h0 hh.symm), hget j, if_pos (by omega)]
    congr 1
    have : j + (n - 1) = (j - 1) + n := by omega
    rw [this, Nat.add_mod_right, Nat.mod_eq_of_lt (by omega)]

/-! ## Lemmas: column shifts -/

theorem colUp_fold_invariant {α : Type} (b : JsBoard α) (idx : Option Int) (k : Nat)
    (hk : k ≤ b.length - 1) :
    (((List.range k).foldl
        (fun bb r => bb.set r (jsSetI ((bb.get? r).getD []) idx
          (jsGetI ((bb.get? (r + 1)).getD []) idx))) b).length = b.length ∧
      ∀ r, ((List.range k).foldl
        (fun bb r => bb.set r (jsSetI ((bb.get? r).getD []) idx
          (jsGetI ((bb.get? (r + 1)).getD []) idx))) b).get? r =
        if r < k then some (jsSetI ((b.get? r).getD []) idx
          (jsGetI ((b.get? (r + 1)).getD []) idx))
        else b.get? r) := by
  induction k with
  | zero => simp
  | succ k ih =>
    obtain ⟨ihlen, ihget⟩ := ih (by omega)
    rw [List.range_succ, List.foldl_append]
    set F := (List.range k).foldl
      (fun bb r => bb.set r (jsSetI ((bb.get? r).getD []) idx
        (jsGetI ((bb.get? (r + 1)).getD []) idx))) b with hF
    simp only [List.foldl_cons, List.foldl_nil]
    have hkb : k < b.length := by omega
    have hgk : F.get? k = b.get? k := by rw [ihget k, if_neg (by omega)]
    have hgk1 : F.get? (k + 1) = b.get? (k + 1) := by rw [ihget (k + 1), if_neg (by omega)]
    constructor
    · rw [List.length_set, ihlen]
    · intro r
      by_cases hr : r = k
      · subst hr
        rw [get?_set_self _ _ _ (by omega), if_pos (by omega), hgk, hgk1]
      · rw [get?_set_ne _ _ _ _ (fun hh => hr hh.symm), ihget r]
        by_cases hrk : r < k
        · rw [if_pos hrk, if_pos (by omega)]
        · rw [if_neg hrk, if_neg (by omega)]

theorem colUpJs_get {α : Type} (b : JsBoard α) (idx : Option Int) (hn : 1 ≤ b.length) :
    (colUpJs b idx).length = b.length ∧
      ∀ r, (colUpJs b idx).get? r =
        if r < b.length - 1 then
          some (jsSetI ((b.get? r).getD []) idx (jsGetI ((b.get? (r + 1)).getD []) idx))
        else if r = b.length - 1 then
          some (jsSetI ((b.get? (b.length - 1)).getD []) idx (jsGetI ((b.get? 0).getD []) idx))
        else b.get? r := by
  obtain ⟨hlen, hget⟩ := colUp_fold_invariant b idx (b.length - 1) (le_refl _)
  set F := (List.range (b.length - 1)).foldl
    (fun bb r => bb.set r (jsSetI ((bb.get? r).getD []) idx
      (jsGetI ((bb.get? (r + 1)).getD []) idx))) b with hF
  have hglast : F.get? (b.length - 1) = b.get? (b.length - 1) := by
    rw [hget, if_neg (by omega)]
  have hcol : colUpJs b idx = F.set (b.length - 1)
      (jsSetI ((F.get? (b.length - 1)).getD []) idx (jsGetI ((b.get? 0).getD []) idx)) := rfl
  rw [hcol, hglast]
  clear_value F
  constructor
  · rw [List.length_set, hlen]
  · intro r
    by_cases hr : r = b.length - 1
    · subst hr
      rw [get?_set_self _ _ _ (by omega), if_neg (by omega), if_pos rfl]
    · rw [get?_set_ne _ _ _ _ (fun hh => hr hh.symm), hget r]
      by_cases hrk : r < b.length - 1
      · rw [if_pos hrk, if_pos hrk]
      · rw [if_neg hrk, if_neg hrk, if_neg hr]

theorem colDown_fold_invariant {α : Type} (idx : Option Int) :
    ∀ (k : Nat) (b : JsBoard α), k ≤ b.length - 1 →
    (((List.range k).reverse.foldl
        (fun bb c => bb.set (c + 1) (jsSetI ((bb.get? (c + 1)).getD []) idx
          (jsGetI ((bb.get? c).getD []) idx))) b).length = b.length ∧
      ∀ r, ((List.range k).reverse.foldl
        (fun bb c => bb.set (c + 1) (jsSetI ((bb.get? (c + 1)).getD []) idx
          (jsGetI ((bb.get? c).getD []) idx))) b).get? r =
        if 1 ≤ r ∧ r ≤ k then
          some (jsSetI ((b.get? r).getD []) idx (jsGetI ((b.get? (r - 1)).getD []) idx))
        else b.get? r) := by
  intro k
  induction k with
  | zero =>
    intro b _
    refine ⟨by simp, fun r => ?_⟩
    simp only [List.range_zero, List.reverse_nil, List.foldl_nil]
    rw [if_neg (by omega)]
  | succ k ih =>
    intro b hk
    have hrev : (List.range (k + 1)).reverse = k :: (List.range k).reverse := by
      rw [List.range_succ, List.reverse_append, List.reverse_singleton]
      rfl
    rw [hrev]
    simp only [List.foldl_cons]
    set W := b.set (k + 1) (jsSetI ((b.get? (k + 1)).getD []) idx
      (jsGetI ((b.get? k).getD []) idx)) with hW
    have hWlen : W.length = b.length := by rw [hW, List.length_set]
    have hWget : ∀ m, m ≠ k + 1 → W.get? m = b.get? m := by
      intro m hm
      rw [hW, get?_set_ne _ _ _ _ (fun hh => hm hh.symm)]
    have hWgetk1 : W.get? (k + 1) = some (jsSetI ((b.get? (k + 1)).getD []) idx
        (jsGetI ((b.get? k).getD []) idx)) := by
      rw [hW, get?_set_self _ _ _ (by omega)]
    obtain ⟨ihlen, ihget⟩ := ih W (by omega)
    refine ⟨by rw [ihlen, hWlen], fun r => ?_⟩
    rw [ihget r]
    by_cases h1 : 1 ≤ r ∧ r ≤ k
    · rw [if_pos h1, if_pos (by omega), hWget r (by omega), hWget (r - 1) (by omega)]
    · by_cases h2 : r = k + 1
      · subst h2
        rw [if_neg h1, if_pos (by omega), hWgetk1]
        have : k + 1 - 1 = k := by omega
        rw [this]
      · rw [if_neg h1, if_neg (by omega), hWget r h2]

theorem colDownJs_get {α : Type} (b : JsBoard α) (idx : Option Int) (hn : 1 ≤ b.length) :
    (colDownJs b idx).length = b.length ∧
      ∀ r, (colDownJs b idx).get? r =
        if r = 0 then
          some (jsSetI ((b.get? 0).getD []) idx (jsGetI ((b.get? (b.length - 1)).getD []) idx))
        else if r ≤ b.length - 1 then
          some (jsSetI ((b.get? r).getD []) idx (jsGetI ((b.get? (r - 1)).getD []) idx))
        else b.get? r := by
  obtain ⟨hlen, hget⟩ := colDown_fold_invariant idx (b.length - 1) b (le_refl _)
  set F := (List.range (b.length - 1)).reverse.foldl
    (fun bb c => bb.set (c + 1) (jsSetI ((bb.get? (c + 1)).getD []) idx
      (jsGetI ((bb.get? c).getD []) idx))) b with hF
  have hg0 : F.get? 0 = b.get? 0 := by rw [hget, if_neg (by omega)]
  have hcol : colDownJs b idx = F.set 0
      (jsSetI ((F.get? 0).getD []) idx (jsGetI ((b.get? (b.length - 1)).getD []) idx)) := rfl
  rw [hcol, hg0]
  clear_value F
  constructor
  · rw [List.length_set, hlen]
  · intro r
    by_cases hr : r = 0
    · subst hr
      rw [get?_set_self _ _ _ (by omega), if_pos rfl]
    · rw [get?_set_ne _ _ _ _ (fun hh => hr hh.symm), hget r]
      by_cases hrk : 1 ≤ r ∧ r ≤ b.length - 1
      · rw [if_pos hrk, if_neg hr, if_pos hrk.2]
      · rw [if_neg hrk, if_neg hr, if_neg (by omega)]

/-! ## Lemmas: bridges between validity predicates and array reads -/

theorem jsGetI_natCast {α : Type} (row : JsRow α) (line : Nat) :
    jsGetI row (some ((line : Nat) : Int)) = jsGetN row line := by
  simp [jsGetI, Int.toNat_natCast, Int.not_lt.2 (Int.natCast_nonneg line)]

theorem jsSetI_natCast {α : Type} (row : JsRow α) (line : Nat) (v : Option α) :
    jsSetI row (some ((line : Nat) : Int)) v = jsSetN row line v := by
  simp [jsSetI, Int.toNat_natCast, Int.not_lt.2 (Int.natCast_nonneg line)]

theorem validBoard_row {α : Type} {n : Nat} {b : JsBoard α} (hb : ValidBoard n b)
    {r : Nat} (hr : r < n) :
    ∃ row, b.get? r = some row ∧ row.length = n ∧
      ∀ c, c < n → (jsGetN row c).isSome = true := by
  obtain ⟨hlen, hrows⟩ := hb
  have hr' : r < b.length := by omega
  obtain ⟨row, hrow⟩ : ∃ row, b.get? r = some row := by
    rw [List.get?_eq_getElem?]
    exact ⟨b[r], List.getElem?_eq_getElem hr'⟩
  have hmem : row ∈ b := List.get?_mem hrow
  obtain ⟨hrlen, hcells⟩ := hrows row hmem
  refine ⟨row, hrow, hrlen, fun c hc => ?_⟩
  obtain ⟨cell, hcell⟩ : ∃ cell, row.get? c = some cell := by
    have hclt : c < row.length := by omega
    rw [List.get?_eq_getElem?]
    exact ⟨row[c], List.getElem?_eq_getElem hclt⟩
  rw [jsGetN, hcell]
  exact hcells cell (List.get?_mem hcell)

theorem validBoard_of_get {α : Type} {n : Nat} {b : JsBoard α}
    (hlen : b.length = n)
    (hrows : ∀ r, r < n → ∃ row, b.get? r = some row ∧ row.length = n ∧
      ∀ c, c < n → (jsGetN row c).isSome = true) :
    ValidBoard n b := by
  refine ⟨hlen, fun row hmem => ?_⟩
  obtain ⟨r, hr⟩ := List.mem_iff_get?.mp hmem
  have hrn : r < n := by
    by_contra hge
    rw [List.get?_eq_getElem?, List.getElem?_eq_none (by omega)] at hr
    exact Option.noConfusion hr
  obtain ⟨row', hrow', hrlen, hcells⟩ := hrows r hrn
  rw [hrow'] at hr
  obtain rfl : row' = row := Option.some.inj hr
  refine ⟨hrlen, fun cell hcell => ?_⟩
  obtain ⟨c, hc⟩ := List.mem_iff_get?.mp hcell
  have hcn : c < n := by
    by_contra hge
    rw [List.get?_eq_getElem?, List.getElem?_eq_none (by omega)] at hc
    exact Option.noConfusion hc
  have := hcells c hcn
  rw [jsGetN, hc] at this
  exact this

theorem validMove_parts {n : Nat} {m : JsMove} (hm : ValidMove n m) :
    ((jsIsStr m.type "row" = true ∧
        (jsIsStr m.direction "left" = true ∨ jsIsStr m.direction "right" = true)) ∨
      (jsIsStr m.type "column" = true ∧
        (jsIsStr m.direction "up" = true ∨ jsIsStr m.direction "down" = true))) ∧
    ∃ line : Nat, line < n ∧ m.index = some (((line + 1 : Nat) : Int)) := by
  unfold ValidMove wellFormedMove at hm
  rcases hidx : m.index with _ | i
  · rw [hidx] at hm
    simp at hm
  · rw [hidx] at hm
    simp only [Bool.and_eq_true, Bool.or_eq_true, decide_eq_true_eq] at hm
    obtain ⟨hty, h1, h2⟩ := hm
    refine ⟨by tauto, (i - 1).toNat, by omega, ?_⟩
    congr 1
    omega

/-! ## Lemmas: `applyMove` on valid moves -/

theorem applyMove_row_left {α : Type} {n : Nat} {b : JsBoard α} {m : JsMove} {line : Nat}
    (hb : ValidBoard n b) (hline : line < n)
    (hty : jsIsStr m.type "row" = true) (hd : jsIsStr m.direction "left" = true)
    (hidx : m.index = some (((line + 1 : Nat) : Int))) :
    ∃ b', applyMove b m = .ok b' ∧ ValidBoard n b' ∧
      ∀ r c, r < n → c < n →
        cellAt b' r c = if r = line then cellAt b r ((c + 1) % n) else cellAt b r c := by
  obtain ⟨row, hrow, hrlen, hcells⟩ := validBoard_row hb hline
  have hn1 : 1 ≤ n := by omega
  have hcast : ((line + 1 : Nat) : Int) - 1 = ((line : Nat) : Int) := by push_cast; ring
  have hra : rowAt b (m.index.map (fun i => i - 1)) = some row := by
    rw [hidx]
    simp only [Option.map_some', hcast, rowAt]
    rw [if_neg (Int.not_lt.2 (Int.natCast_nonneg line)), Int.toNat_natCast]
    exact hrow
  have happ : applyMove b m = .ok (b.set line (rowLeftJs b.length row)) := by
    unfold applyMove
    rw [hty, hd]
    simp only [if_true]
    rw [hra]
    rw [hidx]
    simp only [Option.map_some', hcast, setRowAt]
    rw [if_neg (Int.not_lt.2 (Int.natCast_nonneg line)), Int.toNat_natCast]
  have hblen : b.length = n := hb.1
  rw [hblen] at happ
  set b' := b.set line (rowLeftJs n row) with hb'
  have hget' : ∀ r, b'.get? r = if r = line then some (rowLeftJs n row) else b.get? r := by
    intro r
    by_cases hr : r = line
    · subst hr
      rw [hb', get?_set_self _ _ _ (by omega), if_pos rfl]
    · rw [hb', get?_set_ne _ _ _ _ (fun hh => hr hh.symm), if_neg hr]
  have hcell' : ∀ r c, r < n → c < n →
      cellAt b' r c = if r = line then cellAt b r ((c + 1) % n) else cellAt b r c := by
    intro r c hr hc
    unfold cellAt
    rw [hget' r]
    by_cases hrl : r = line
    · subst hrl
      rw [if_pos rfl, if_pos rfl]
      simp only [Option.getD_some]
      rw [jsGetN_rowLeftJs row n c hrlen hn1 hc, hrow]
      simp only [Option.getD_some]
    · rw [if_neg hrl, if_neg hrl]
  refine ⟨b', happ, ?_, hcell'⟩
  refine validBoard_of_get (by rw [hb', List.length_set, hblen]) (fun r hr => ?_)
  rw [hget' r]
  by_cases hrl : r = line
  · subst hrl
    refine ⟨rowLeftJs n row, by rw [if_pos rfl], rowLeftJs_length row n hrlen hn1, fun c hc => ?_⟩
    rw [jsGetN_rowLeftJs row n c hrlen hn1 hc]
    exact hcells _ (Nat.mod_lt _ (by omega))
  · rw [if_neg hrl]
    obtain ⟨row', hrow', hlen', hcells'⟩ := validBoard_row hb hr
    exact ⟨row', hrow', hlen', hcells'⟩

theorem applyMove_row_right {α : Type} {n : Nat} {b : JsBoard α} {m : JsMove} {line : Nat}
    (hb : ValidBoard n b) (hline : line < n)
    (hty : jsIsStr m.type "row" = true) (hd : jsIsStr m.direction "right" = true)
    (hidx : m.index = some (((line + 1 : Nat) : Int))) :
    ∃ b', applyMove b m = .ok b' ∧ ValidBoard n b' ∧
      ∀ r c, r < n → c < n →
        cellAt b' r c = if r = line then cellAt b r ((c + (n - 1)) % n) else cellAt b r c := by
  obtain ⟨row, hrow, hrlen, hcells⟩ := validBoard_row hb hline
  have hn1 : 1 ≤ n := by omega
  have hdl : jsIsStr m.direction "left" = false := by
    rcases hdir : m.direction with _ | _ | _ | _ | s | _ | _ <;>
      simp_all [jsIsStr]
  have hcast : ((line + 1 : Nat) : Int) - 1 = ((line : Nat) : Int) := by push_cast; ring
  have hra : rowAt b (some ((line : Nat) : Int)) = some row := by
    simp only [rowAt]
    rw [if_neg (Int.not_lt.2 (Int.natCast_nonneg line)), Int.toNat_natCast]
    exact hrow
  have happ : applyMove b m = .ok (b.set line (rowRightJs b.length row)) := by
    unfold applyMove
    rw [hidx]
    simp only [Option.map_some', hcast]
    simp [hty, hd, hdl, hra, setRowAt, Int.not_lt.2 (Int.natCast_nonneg line)]
  have hblen : b.length = n := hb.1
  rw [hblen] at happ
  set b' := b.set line (rowRightJs n row) with hb'
  have hget' : ∀ r, b'.get? r = if r = line then some (rowRightJs n row) else b.get? r := by
    intro r
    by_cases hr : r = line
    · subst hr
      rw [hb', get?_set_self _ _ _ (by omega), if_pos rfl]
    · rw [hb', get?_set_ne _ _ _ _ (fun hh => hr hh.symm), if_neg hr]
  have hcell' : ∀ r c, r < n → c < n →
      cellAt b' r c = if r = line then cellAt b r ((c + (n - 1)) % n) else cellAt b r c := by
    intro r c hr hc
    unfold cellAt
    rw [hget' r]
    by_cases hrl : r = line
    · subst hrl
      rw [if_pos rfl, if_pos rfl]
      simp only [Option.getD_some]
      rw [jsGetN_rowRightJs row n c hrlen hn1 hc, hrow]
      simp only [Option.getD_some]
    · rw [if_neg hrl, if_neg hrl]
  refine ⟨b', happ, ?_, hcell'⟩
  refine validBoard_of_get (by rw [hb', List.length_set, hblen]) (fun r hr => ?_)
  rw [hget' r]
  by_cases hrl : r = line
  · subst hrl
    refine ⟨rowRightJs n row, by rw [if_pos rfl], rowRightJs_length row n hrlen hn1,
      fun c hc => ?_⟩
    rw [jsGetN_rowRightJs row n c hrlen hn1 hc]
    exact hcells _ (Nat.mod_lt _ (by omega))
  · rw [if_neg hrl]
    exact validBoard_row hb hr

theorem applyMove_col_up {α : Type} {n : Nat} {b : JsBoard α} {m : JsMove} {line : Nat}
    (hb : ValidBoard n b) (hline : line < n)
    (hty : jsIsStr m.type "column" = true) (hd : jsIsStr m.direction "up" = true)
    (hidx : m.index = some (((line + 1 : Nat) : Int))) :
    ∃ b', applyMove b m = .ok b' ∧ ValidBoard n b' ∧
      ∀ r c, r < n → c < n →
        cellAt b' r c = if c = line then cellAt b ((r + 1) % n) c else cellAt b r c := by
  have hblen : b.length = n := hb.1
  have hn1 : 1 ≤ n := by omega
  have htyrow : jsIsStr m.type "row" = false := by
    rcases hty' : m.type with _ | _ | _ | _ | s | _ | _ <;> simp_all [jsIsStr]
  have hcast : ((line + 1 : Nat) : Int) - 1 = ((line : Nat) : Int) := by push_cast; ring
  have happ : applyMove b m =
      .ok (colUpJs b (some ((line : Nat) : Int))) := by
    unfold applyMove
    rw [hidx]
    simp only [Option.map_some', hcast]
    simp [htyrow, hty, hd, show ¬ b.length = 0 by omega]
  obtain ⟨hclen, hcget⟩ := colUpJs_get b (some ((line : Nat) : Int)) (by omega)
  set b' := colUpJs b (some ((line : Nat) : Int)) with hb'
  have hrowsrc : ∀ r, r < n → ∃ row, b.get? r = some row ∧ row.length = n ∧
      ∀ c, c < n → (jsGetN row c).isSome = true := fun r hr => validBoard_row hb hr
  have hget' : ∀ r, r < n → ∃ row row', b.get? r = some row ∧
      b.get? ((r + 1) % n) = some row' ∧
      b'.get? r = some (jsSetN row line (jsGetN row' line)) := by
    intro r hr
    obtain ⟨row, hrow, _, _⟩ := hrowsrc r hr
    obtain ⟨row', hrow', _, _⟩ := hrowsrc ((r + 1) % n) (Nat.mod_lt _ (by omega))
    refine ⟨row, row', hrow, hrow', ?_⟩
    rw [hcget r]
    by_cases hrl : r < n - 1
    · rw [if_pos (by omega)]
      have : (r + 1) % n = r + 1 := Nat.mod_eq_of_lt (by omega)
      rw [this] at hrow'
      rw [hrow, hrow']
      simp only [Option.getD_some]
      rw [jsSetI_natCast, jsGetI_natCast]
    · have hreq : r = n - 1 := by omega
      rw [if_neg (by omega), if_pos (by omega)]
      have h0 : (r + 1) % n = 0 := by
        rw [hreq, Nat.sub_add_cancel hn1, Nat.mod_self]
      rw [h0] at hrow'
      rw [hblen, ← hreq, hrow, hrow']
      simp only [Option.getD_some]
      rw [jsSetI_natCast, jsGetI_natCast]
  have hcell' : ∀ r c, r < n → c < n →
      cellAt b' r c = if c = line then cellAt b ((r + 1) % n) c else cellAt b r c := by
    intro r c hr hc
    obtain ⟨row, row', hrow, hrow', hbr⟩ := hget' r hr
    unfold cellAt
    rw [hbr, hrow, hrow']
    simp only [Option.getD_some]
    by_cases hcl : c = line
    · subst hcl
      rw [jsGetN_jsSetN_self, if_pos rfl]
    · rw [jsGetN_jsSetN_ne _ _ _ _ (fun hh => hcl hh.symm), if_neg hcl]
  refine ⟨b', happ, ?_, hcell'⟩
  refine validBoard_of_get (by rw [hb', hclen, hblen]) (fun r hr => ?_)
  obtain ⟨row, row', hrow, hrow', hbr⟩ := hget' r hr
  obtain ⟨_, hrowb, hrlen, hcellsb⟩ := hrowsrc r hr
  obtain ⟨_, hrowb', hrlen', hcellsb'⟩ := hrowsrc ((r + 1) % n) (Nat.mod_lt _ (by omega))
  rw [hrow] at hrowb
  obtain rfl := Option.some.inj hrowb
  rw [hrow'] at hrowb'
  obtain rfl := Option.some.inj hrowb'
  refine ⟨_, hbr, ?_, fun c hc => ?_⟩
  · rw [length_jsSetN_of_lt _ _ _ (by omega), hrlen]
  · by_cases hcl : c = line
    · subst hcl
      rw [jsGetN_jsSetN_self]
      exact hcellsb' c hc
    · rw [jsGetN_jsSetN_ne _ _ _ _ (fun hh => hcl hh.symm)]
      exact hcellsb c hc

theorem applyMove_col_down {α : Type} {n : Nat} {b : JsBoard α} {m : JsMove} {line : Nat}
    (hb : ValidBoard n b) (hline : line < n)
    (hty : jsIsStr m.type "column" = true) (hd : jsIsStr m.direction "down" = true)
    (hidx : m.index = some (((line + 1 : Nat) : Int))) :
    ∃ b', applyMove b m = .ok b' ∧ ValidBoard n b' ∧
      ∀ r c, r < n → c < n →
        cellAt b' r c = if c = line then cellAt b ((r + (n - 1)) % n) c else cellAt b r c := by
  have hblen : b.length = n := hb.1
  have hn1 : 1 ≤ n := by omega
  have htyrow : jsIsStr m.type "row" = false := by
    rcases hty' : m.type with _ | _ | _ | _ | s | _ | _ <;> simp_all [jsIsStr]
  have hdu : jsIsStr m.direction "up" = false := by
    rcases hdir : m.direction with _ | _ | _ | _ | s | _ | _ <;> simp_all [jsIsStr]
  have hcast : ((line + 1 : Nat) : Int) - 1 = ((line : Nat) : Int) := by push_cast; ring
  have happ : applyMove b m =
      .ok (colDownJs b (some ((line : Nat) : Int))) := by
    unfold applyMove
    rw [hidx]
    simp only [Option.map_some', hcast]
    simp [htyrow, hty, hdu, hd, show ¬ b.length = 0 by omega]
  obtain ⟨hclen, hcget⟩ := colDownJs_get b (some ((line : Nat) : Int)) (by omega)
  set b' := colDownJs b (some ((line : Nat) : Int)) with hb'
  have hrowsrc : ∀ r, r < n → ∃ row, b.get? r = some row ∧ row.length = n ∧
      ∀ c, c < n → (jsGetN row c).isSome = true := fun r hr => validBoard_row hb hr
  have hget' : ∀ r, r < n → ∃ row row', b.get? r = some row ∧
      b.get? ((r + (n - 1)) % n) = some row' ∧
      b'.get? r = some (jsSetN row line (jsGetN row' line)) := by
    intro r hr
    obtain ⟨row, hrow, _, _⟩ := hrowsrc r hr
    obtain ⟨row', hrow', _, _⟩ := hrowsrc ((r + (n - 1)) % n) (Nat.mod_lt _ (by omega))
    refine ⟨row, row', hrow, hrow', ?_⟩
    rw [hcget r]
    by_cases hr0 : r = 0
    · subst hr0
      rw [if_pos rfl]
      have h0 : (0 + (n - 1)) % n = n - 1 := by
        rw [Nat.zero_add, Nat.mod_eq_of_lt (by omega)]
      rw [h0] at hrow'
      rw [hblen, hrow, hrow']
      simp only [Option.getD_some]
      rw [jsSetI_natCast, jsGetI_natCast]
    · rw [if_neg hr0, if_pos (by omega)]
      have h1 : (r + (n - 1)) % n = r - 1 := by
        have : r + (n - 1) = (r - 1) + n := by omega
        rw [this, Nat.add_mod_right, Nat.mod_eq_of_lt (by omega)]
      rw [h1] at hrow'
      rw [hrow, hrow']
      simp only [Option.getD_some]
      rw [jsSetI_natCast, jsGetI_natCast]
  have hcell' : ∀ r c, r < n → c < n →
      cellAt b' r c = if c = line then cellAt b ((r + (n - 1)) % n) c else cellAt b r c := by
    intro r c hr hc
    obtain ⟨row, row', hrow, hrow', hbr⟩ := hget' r hr
    unfold cellAt
    rw [hbr, hrow, hrow']
    simp only [Option.getD_some]
    by_cases hcl : c = line
    · subst hcl
      rw [jsGetN_jsSetN_self, if_pos rfl]
    · rw [jsGetN_jsSetN_ne _ _ _ _ (fun hh => hcl hh.symm), if_neg hcl]
  refine ⟨b', happ, ?_, hcell'⟩
  refine validBoard_of_get (by rw [hb', hclen, hblen]) (fun r hr => ?_)
  obtain ⟨row, row', hrow, hrow', hbr⟩ := hget' r hr
  obtain ⟨_, hrowb, hrlen, hcellsb⟩ := hrowsrc r hr
  obtain ⟨_, hrowb', hrlen', hcellsb'⟩ := hrowsrc ((r + (n - 1)) % n) (Nat.mod_lt _ (by omega))
  rw [hrow] at hrowb
  obtain rfl := Option.some.inj hrowb
  rw [hrow'] at hrowb'
  obtain rfl := Option.some.inj hrowb'
  refine ⟨_, hbr, ?_, fun c hc => ?_⟩
  · rw [length_jsSetN_of_lt _ _ _ (by omega), hrlen]
  · by_cases hcl : c = line
    · subst hcl
      rw [jsGetN_jsSetN_self]
      exact hcellsb' c hc
    · rw [jsGetN_jsSetN_ne _ _ _ _ (fun hh => hcl hh.symm)]
      exact hcellsb c hc

/-! ## Lemmas: `applyMove` on invalid moves -/

theorem applyMove_bad {α : Type} (b : JsBoard α) (m : JsMove) (hbad : BadTypeOrDir m) :
    applyMove b m = .ok b := by
  unfold applyMove
  rcases hbad with ⟨hty, hl, hr⟩ | ⟨hty, hu, hd⟩ | ⟨hrow, hcol⟩
  · simp [hty, hl, hr]
  · have hrowf : jsIsStr m.type "row" = false := by
      rcases hh : m.type <;> simp_all [jsIsStr]
    simp [hrowf, hty, hu, hd]
  · simp [hrow, hcol]

theorem rowAt_oob {α : Type} {n : Nat} {b : JsBoard α} (hb : b.length = n) {idx : Option Int}
    (hidx : idx = none ∨ ∃ i, idx = some i ∧ (i < 1 ∨ (n : Int) < i)) :
    rowAt b (idx.map (fun i => i - 1)) = none := by
  rcases hidx with rfl | ⟨i, rfl, hi⟩
  · rfl
  · simp only [Option.map_some', rowAt]
    rcases hi with hlt | hgt
    · rw [if_pos (by omega)]
    · rw [if_neg (by omega)]
      rw [List.get?_eq_getElem?, List.getElem?_eq_none]
      omega

theorem applyMove_row_oob {α : Type} {n : Nat} (b : JsBoard α) (m : JsMove)
    (hb : b.length = n) (hty : jsIsStr m.type "row" = true)
    (hd : jsIsStr m.direction "left" = true ∨ jsIsStr m.direction "right" = true)
    (hidx : m.index = none ∨ ∃ i, m.index = some i ∧ (i < 1 ∨ (n : Int) < i)) :
    applyMove b m = .thrown b := by
  have hra := rowAt_oob hb hidx
  unfold applyMove
  rcases hd with hl | hr
  · simp [hty, hl, hra]
  · have hlf : jsIsStr m.direction "left" = false := by
      rcases hh : m.direction <;> simp_all [jsIsStr]
    simp [hty, hlf, hr, hra]

theorem jsGetN_jsSetI_oob {α : Type} {n : Nat} (row : JsRow α) {idx : Option Int}
    (v : Option α) (_hrow : row.length = n)
    (hidx : idx = none ∨ ∃ j, idx = some j ∧ (j < 0 ∨ (n : Int) ≤ j))
    {c : Nat} (hc : c < n) :
    jsGetN (jsSetI row idx v) c = jsGetN row c := by
  rcases hidx with rfl | ⟨j, rfl, hj⟩
  · rfl
  · simp only [jsSetI]
    rcases hj with hlt | hge
    · rw [if_pos hlt]
    · rw [if_neg (by omega)]
      exact jsGetN_jsSetN_ne _ _ _ _ (by omega)

theorem applyMove_col_oob {α : Type} {n : Nat} (b : JsBoard α) (m : JsMove)
    (hb : ValidBoard n b) (hn : 1 ≤ n) (hty : jsIsStr m.type "column" = true)
    (hd : jsIsStr m.direction "up" = true ∨ jsIsStr m.direction "down" = true)
    (hidx : m.index = none ∨ ∃ i, m.index = some i ∧ (i < 1 ∨ (n : Int) < i)) :
    ∃ b', applyMove b m = .ok b' ∧
      ∀ r c, r < n → c < n → cellAt b' r c = cellAt b r c := by
  have hblen : b.length = n := hb.1
  have htyrow : jsIsStr m.type "row" = false := by
    rcases hh : m.type <;> simp_all [jsIsStr]
  set idx := m.index.map (fun i => i - 1) with hidxdef
  have hout : idx = none ∨ ∃ j, idx = some j ∧ (j < 0 ∨ (n : Int) ≤ j) := by
    rcases hidx with hnone | ⟨i, hsome, hi⟩
    · left; rw [hidxdef, hnone]; rfl
    · right; exact ⟨i - 1, by rw [hidxdef, hsome]; rfl, by omega⟩
  have hsetcell : ∀ (row row' : JsRow α), row.length = n → ∀ c, c < n →
      jsGetN (jsSetI row idx (jsGetI row' idx)) c = jsGetN row c := by
    intro row row' hrow c hc
    exact jsGetN_jsSetI_oob row _ hrow hout hc
  rcases hd with hu | hdwn
  · refine ⟨colUpJs b idx, ?_, ?_⟩
    · unfold applyMove
      simp [htyrow, hty, hu, show ¬ b.length = 0 by omega]
    · intro r c hr hc
      obtain ⟨hclen, hcget⟩ := colUpJs_get b idx (by omega)
      obtain ⟨row, hrow, hrlen, _⟩ := validBoard_row hb hr
      unfold cellAt
      rw [hcget r]
      by_cases hr1 : r < n - 1
      · rw [if_pos (by omega), hrow]
        simp only [Option.getD_some]
        exact hsetcell row _ hrlen c hc
      · rw [if_neg (by omega), if_pos (by omega)]
        have : r = n - 1 := by omega
        subst this
        rw [hblen, hrow]
        simp only [Option.getD_some]
        exact hsetcell row _ hrlen c hc
  · refine ⟨colDownJs b idx, ?_, ?_⟩
    · have huf : jsIsStr m.direction "up" = false := by
        rcases hh : m.direction <;> simp_all [jsIsStr]
      unfold applyMove
      simp [htyrow, hty, huf, hdwn, show ¬ b.length = 0 by omega]
    · intro r c hr hc
      obtain ⟨hclen, hcget⟩ := colDownJs_get b idx (by omega)
      obtain ⟨row, hrow, hrlen, _⟩ := validBoard_row hb hr
      unfold cellAt
      rw [hcget r]
      by_cases hr0 : r = 0
      · subst hr0
        rw [if_pos rfl, hrow]
        simp only [Option.getD_some]
        exact hsetcell row _ hrlen c hc
      · rw [if_neg hr0, if_pos (by omega), hrow]
        simp only [Option.getD_some]
        exact hsetcell row _ hrlen c hc

/-! ## Lemmas: extensionality and valid sequences -/

theorem validBoard_ext {α : Type} {n : Nat} {b1 b2 : JsBoard α}
    (h1 : ValidBoard n b1) (h2 : ValidBoard n b2)
    (hcell : ∀ r c, r < n → c < n → cellAt b1 r c = cellAt b2 r c) : b1 = b2 := by
  have hl1 := h1.1
  have hl2 := h2.1
  apply List.ext_get?
  intro r
  by_cases hr : r < n
  · obtain ⟨row1, hrow1, hlen1, hcells1⟩ := validBoard_row h1 hr
    obtain ⟨row2, hrow2, hlen2, hcells2⟩ := validBoard_row h2 hr
    rw [hrow1, hrow2]
    congr 1
    apply List.ext_get?
    intro c
    by_cases hc : c < n
    · have hv := hcell r c hr hc
      unfold cellAt at hv
      rw [hrow1, hrow2] at hv
      simp only [Option.getD_some] at hv
      unfold jsGetN at hv
      rcases hg1 : row1.get? c with _ | x1
      · rw [List.get?_eq_getElem?, List.getElem?_eq_none_iff] at hg1
        omega
      · rcases hg2 : row2.get? c with _ | x2
        · rw [List.get?_eq_getElem?, List.getElem?_eq_none_iff] at hg2
          omega
        · rw [hg1, hg2] at hv
          simp only [Option.getD_some] at hv
          rw [hv]
    · rw [List.get?_eq_getElem?, List.get?_eq_getElem?,
        List.getElem?_eq_none (by omega), List.getElem?_eq_none (by omega)]
  · rw [List.get?_eq_getElem?, List.get?_eq_getElem?,
      List.getElem?_eq_none (by omega), List.getElem?_eq_none (by omega)]

theorem applyMove_valid {α : Type} {n : Nat} (b : JsBoard α) (m : JsMove)
    (hb : ValidBoard n b) (hm : ValidMove n m) :
    ∃ b', applyMove b m = .ok b' ∧ ValidBoard n b' := by
  obtain ⟨hcases, line, hline, hidx⟩ := validMove_parts hm
  rcases hcases with ⟨hty, hl | hr⟩ | ⟨hty, hu | hd⟩
  · obtain ⟨b', h1, h2, _⟩ := applyMove_row_left hb hline hty hl hidx
    exact ⟨b', h1, h2⟩
  · obtain ⟨b', h1, h2, _⟩ := applyMove_row_right hb hline hty hr hidx
    exact ⟨b', h1, h2⟩
  · obtain ⟨b', h1, h2, _⟩ := applyMove_col_up hb hline hty hu hidx
    exact ⟨b', h1, h2⟩
  · obtain ⟨b', h1, h2, _⟩ := applyMove_col_down hb hline hty hd hidx
    exact ⟨b', h1, h2⟩

theorem applySequence_valid {α : Type} {n : Nat} :
    ∀ (seq : List JsMove) (b : JsBoard α), ValidBoard n b → (∀ m ∈ seq, ValidMove n m) →
      applySequence b seq = .ok (seq.foldl applyMove1 b) ∧
        ValidBoard n (seq.foldl applyMove1 b) := by
  intro seq
  induction seq with
  | nil => intro b hb _; exact ⟨rfl, hb⟩
  | cons m rest ih =>
    intro b hb hms
    obtain ⟨b', hok, hb'⟩ := applyMove_valid b m hb (hms m (by simp))
    have h1 : applyMove1 b m = b' := by unfold applyMove1; rw [hok]
    obtain ⟨ihok, ihvalid⟩ := ih b' hb' (fun mv hmv => hms mv (by simp [hmv]))
    constructor
    · show (match applyMove b m with
        | .ok b' => applySequence b' rest
        | .thrown b' => .thrown b') = _
      rw [hok]
      simp only [List.foldl_cons, h1]
      exact ihok
    · simp only [List.foldl_cons, h1]
      exact ihvalid

/-! ## Lemmas: RNG -/

theorem TWO32_eq : TWO32 = 2 ^ 32 := by norm_num [TWO32]

theorem mod_TWO32_lt (x : Nat) : x % TWO32 < TWO32 :=
  Nat.mod_lt _ (by norm_num [TWO32])

theorem xor_lt_TWO32 {x y : Nat} (hx : x < TWO32) (hy : y < TWO32) :
    Nat.xor x y < TWO32 := by
  rw [TWO32_eq] at hx hy ⊢
  exact Nat.xor_lt_two_pow hx hy

theorem shiftRight_lt_TWO32 {x : Nat} (s : Nat) (hx : x < TWO32) : x >>> s < TWO32 := by
  rw [Nat.shiftRight_eq_div_pow]
  exact lt_of_le_of_lt (Nat.div_le_self _ _) hx

theorem mulberry32Next_snd_lt (a : Nat) : (mulberry32Next a).2 < TWO32 := by
  unfold mulberry32Next
  simp only
  exact xor_lt_TWO32 (xor_lt_TWO32 (mod_TWO32_lt _) (mod_TWO32_lt _))
    (shiftRight_lt_TWO32 _ (xor_lt_TWO32 (mod_TWO32_lt _) (mod_TWO32_lt _)))

theorem randint_bounds (a lo hi : Nat) (hle : lo ≤ hi) :
    lo ≤ (randint a lo hi).2 ∧ (randint a lo hi).2 ≤ hi := by
  unfold randint
  simp only
  have hk := mulberry32Next_snd_lt a
  have hM : 0 < hi - lo + 1 := Nat.succ_pos _
  have hlt : (mulberry32Next a).2 * (hi - lo + 1) < (hi - lo + 1) * TWO32 := by
    calc (mulberry32Next a).2 * (hi - lo + 1) < TWO32 * (hi - lo + 1) :=
      (Nat.mul_lt_mul_right hM).mpr hk
    _ = (hi - lo + 1) * TWO32 := Nat.mul_comm _ _
  have hdivlt : (mulberry32Next a).2 * (hi - lo + 1) / TWO32 < hi - lo + 1 :=
    (Nat.div_lt_iff_lt_mul (by norm_num [TWO32])).2 hlt
  constructor
  · exact Nat.le_add_left lo _
  · have hle' : (mulberry32Next a).2 * (hi - lo + 1) / TWO32 ≤ hi - lo :=
      Nat.lt_succ_iff.mp hdivlt
    calc (mulberry32Next a).2 * (hi - lo + 1) / TWO32 + lo ≤ (hi - lo) + lo :=
      Nat.add_le_add_right hle' lo
    _ = hi := Nat.sub_add_cancel hle

theorem genMoves_length (size : Nat) : ∀ (count a : Nat), (genMoves size a count).length = count := by
  intro count
  induction count with
  | zero => intro a; rfl
  | succ k ih =>
    intro a
    unfold genMoves
    simp only [List.length_cons]
    rw [ih]

theorem getDeterministicShuffleCount_bounds (version : String) (size : Nat) (h2 : 2 ≤ size) :
    size ≤ getDeterministicShuffleCount version size ∧
      getDeterministicShuffleCount version size ≤ 2 * size * size := by
  unfold getDeterministicShuffleCount
  have := randint_bounds (hash32 ("ShuffleCount_v" ++ version ++ "_" ++ toString size))
    size (size * size * 2) (by nlinarith)
  constructor
  · exact this.1
  · calc (randint _ size (size * size * 2)).2 ≤ size * size * 2 := this.2
      _ = 2 * size * size := by ring

theorem generateDeterministicSequence_length (version : String) (size : Nat)
    (moves : Option Nat) (salt : String) :
    (generateDeterministicSequence version size moves salt).length =
      match moves with
      | some m => m
      | none => getDeterministicShuffleCount version size := by
  unfold generateDeterministicSequence
  simp only
  rw [genMoves_length]

/-! ## Lemmas: hash32 -/

theorem char_toNat_lt (c : Char) : c.toNat < 1114112 := by
  have h := c.valid
  unfold UInt32.isValidChar Nat.isValidChar at h
  rcases h with h | ⟨h1, h2⟩ <;> simp only [Char.toNat] <;> omega

theorem utf16Units_lt (c : Char) : ∀ u ∈ utf16Units c, u < TWO32 := by
  intro u hu
  have hc := char_toNat_lt c
  unfold utf16Units at hu
  by_cases h : c.toNat < 65536
  · rw [if_pos h] at hu
    simp only [List.mem_singleton] at hu
    subst hu
    calc c.toNat < 65536 := h
      _ < TWO32 := by norm_num [TWO32]
  · rw [if_neg h] at hu
    simp only [List.mem_cons, List.mem_singleton, List.not_mem_nil, or_false] at hu
    generalize hN : c.toNat = N at h hc hu
    have hdivle : (N - 65536) / 1024 ≤ N :=
      le_trans (Nat.div_le_self _ _) (by omega)
    have hmod : (N - 65536) % 1024 < 1024 := Nat.mod_lt _ (by norm_num)
    have hT : TWO32 = 4294967296 := rfl
    rcases hu with h1 | h1
    · rw [h1, hT]
      omega
    · rw [h1, hT]
      omega

theorem strUnits_lt (s : String) : ∀ u ∈ strUnits s, u < TWO32 := by
  intro u hu
  unfold strUnits at hu
  rw [List.mem_flatMap] at hu
  obtain ⟨c, _, hc⟩ := hu
  exact utf16Units_lt c u hc

theorem hash32Step_eq (h c : Nat) (hh : h < TWO32) :
    hash32Step h c = Nat.xor (h * 33 % TWO32) c := by
  unfold hash32Step
  congr 1
  rw [show h * 33 = h * 32 + h by ring, Nat.add_mod (h * 32) h, Nat.mod_eq_of_lt hh]

theorem hash32Step_lt (h c : Nat) (hc : c < TWO32) : hash32Step h c < TWO32 :=
  xor_lt_TWO32 (mod_TWO32_lt _) hc

theorem hash32_foldl_eq : ∀ (units : List Nat) (h : Nat), h < TWO32 →
    (∀ u ∈ units, u < TWO32) →
    units.foldl hash32Step h =
      units.foldl (fun h c => Nat.xor (h * 33 % TWO32) c % TWO32) h ∧
      units.foldl hash32Step h < TWO32 := by
  intro units
  induction units with
  | nil => intro h hh _; exact ⟨rfl, hh⟩
  | cons u rest ih =>
    intro h hh hus
    have hu : u < TWO32 := hus u (by simp)
    have hstep : hash32Step h u < TWO32 := hash32Step_lt h u hu
    have hspec : Nat.xor (h * 33 % TWO32) u % TWO32 = hash32Step h u := by
      rw [hash32Step_eq h u hh, Nat.mod_eq_of_lt (xor_lt_TWO32 (mod_TWO32_lt _) hu)]
    simp only [List.foldl_cons]
    rw [hspec]
    exact ih (hash32Step h u) hstep (fun v hv => hus v (by simp [hv]))

/-! ## Lemmas: base64 codec -/

theorem b64val_b64alpha : ∀ s, s < 64 → b64val (b64alpha s) = some s := by decide

theorem b64alpha_ne_pad : ∀ s, s < 64 → b64alpha s ≠ 61 := by decide

theorem b64alpha_mapRound : ∀ s, s < 64 → stdChar (urlChar (b64alpha s)) = b64alpha s := by decide

theorem atobGroups_b64enc : ∀ (bytes : List Nat), (∀ b ∈ bytes, b < 256) →
    atobGroups (b64enc bytes) = some bytes := by
  intro bytes
  induction bytes using b64enc.induct with
  | case1 =>
    intro _
    rfl
  | case2 b1 =>
    intro hb
    have h1 : b1 < 256 := hb b1 (by simp)
    unfold b64enc atobGroups
    rw [b64val_b64alpha _ (by omega), b64val_b64alpha _ (by omega)]
    simp only
    rw [if_pos (by decide)]
    simp only [Option.some.injEq, List.cons.injEq, and_true]
    omega
  | case3 b1 b2 =>
    intro hb
    have h1 : b1 < 256 := hb b1 (by simp)
    have h2 : b2 < 256 := hb b2 (by simp)
    unfold b64enc atobGroups
    rw [b64val_b64alpha _ (by omega), b64val_b64alpha _ (by omega)]
    simp only
    rw [if_neg (by simp [b64alpha_ne_pad _ (show b2 % 16 * 4 < 64 by omega)])]
    rw [if_pos (by simp)]
    rw [b64val_b64alpha _ (by omega)]
    simp only [Option.some.injEq, List.cons.injEq, and_true]
    exact ⟨by omega, by omega⟩
  | case4 b1 b2 b3 rest ih =>
    intro hb
    have h1 : b1 < 256 := hb b1 (by simp)
    have h2 : b2 < 256 := hb b2 (by simp)
    have h3 : b3 < 256 := hb b3 (by simp)
    have hrest := ih (fun b hbm => hb b (by simp [hbm]))
    unfold b64enc atobGroups
    rw [b64val_b64alpha _ (by omega), b64val_b64alpha _ (by omega)]
    simp only
    rw [if_neg (by simp [b64alpha_ne_pad _ (show b2 % 16 * 4 + b3 / 64 < 64 by omega)])]
    rw [if_neg (by simp [b64alpha_ne_pad _ (show b3 % 64 < 64 by omega)])]
    rw [b64val_b64alpha _ (by omega), b64val_b64alpha _ (by omega), hrest]
    simp only [Option.some.injEq, List.cons.injEq]
    exact ⟨by omega, by omega, by omega, trivial⟩

theorem urlChar_b64alpha_ne_pad : ∀ s, s < 64 → urlChar (b64alpha s) ≠ 61 := by decide

theorem b64enc_split : ∀ (bytes : List Nat), (∀ b ∈ bytes, b < 256) →
    ∃ body p, b64enc bytes = body ++ List.replicate p 61 ∧ p ≤ 2 ∧
      (∀ ch ∈ body, ∃ s, s < 64 ∧ ch = b64alpha s) ∧ (body.length + p) % 4 = 0 := by
  intro bytes
  induction bytes using b64enc.induct with
  | case1 =>
    intro _
    exact ⟨[], 0, rfl, by omega, by simp, by decide⟩
  | case2 b1 =>
    intro hb
    have h1 : b1 < 256 := hb b1 (by simp)
    refine ⟨[b64alpha (b1 / 4), b64alpha (b1 % 4 * 16)], 2, rfl, by omega, ?_, by norm_num⟩
    intro ch hch
    simp only [List.mem_cons, List.not_mem_nil, or_false] at hch
    rcases hch with rfl | rfl
    · exact ⟨b1 / 4, by omega, rfl⟩
    · exact ⟨b1 % 4 * 16, by omega, rfl⟩
  | case3 b1 b2 =>
    intro hb
    have h1 : b1 < 256 := hb b1 (by simp)
    have h2 : b2 < 256 := hb b2 (by simp)
    refine ⟨[b64alpha (b1 / 4), b64alpha (b1 % 4 * 16 + b2 / 16), b64alpha (b2 % 16 * 4)],
      1, rfl, by omega, ?_, by norm_num⟩
    intro ch hch
    simp only [List.mem_cons, List.not_mem_nil, or_false] at hch
    rcases hch with rfl | rfl | rfl
    · exact ⟨b1 / 4, by omega, rfl⟩
    · exact ⟨b1 % 4 * 16 + b2 / 16, by omega, rfl⟩
    · exact ⟨b2 % 16 * 4, by omega, rfl⟩
  | case4 b1 b2 b3 rest ih =>
    intro hb
    have h1 : b1 < 256 := hb b1 (by simp)
    have h2 : b2 < 256 := hb b2 (by simp)
    have h3 : b3 < 256 := hb b3 (by simp)
    obtain ⟨body, p, hsplit, hp, hbody, hmod⟩ := ih (fun b hbm => hb b (by simp [hbm]))
    refine ⟨b64alpha (b1 / 4) :: b64alpha (b1 % 4 * 16 + b2 / 16) ::
      b64alpha (b2 % 16 * 4 + b3 / 64) :: b64alpha (b3 % 64) :: body, p, ?_, hp, ?_, ?_⟩
    · unfold b64enc
      rw [hsplit]
      rfl
    · intro ch hch
      simp only [List.mem_cons] at hch
      rcases hch with rfl | rfl | rfl | rfl | hmem
      · exact ⟨b1 / 4, by omega, rfl⟩
      · exact ⟨b1 % 4 * 16 + b2 / 16, by omega, rfl⟩
      · exact ⟨b2 % 16 * 4 + b3 / 64, by omega, rfl⟩
      · exact ⟨b3 % 64, by omega, rfl⟩
      · exact hbody ch hmem
    · simp only [List.length_cons]
      omega

theorem dropWhile_pad_append (p : Nat) (l : List Nat) :
    List.dropWhile (fun c => c == 61) (List.replicate p 61 ++ l) =
      List.dropWhile (fun c => c == 61) l := by
  induction p with
  | zero => rfl
  | succ k ih =>
    rw [List.replicate_succ, List.cons_append, List.dropWhile_cons_of_pos (by decide)]
    exact ih

theorem dropWhile_of_head_ne (l : List Nat) (hl : ∀ ch ∈ l, ch ≠ 61) :
    List.dropWhile (fun c => c == 61) l = l := by
  cases l with
  | nil => rfl
  | cons h t =>
    rw [List.dropWhile_cons_of_neg]
    simp only [beq_iff_eq]
    exact hl h (by simp)

theorem stripPad_append_pad (X : List Nat) (p : Nat) (hX : ∀ ch ∈ X, ch ≠ 61) :
    stripPad (X ++ List.replicate p 61) = X := by
  unfold stripPad
  rw [List.reverse_append, List.reverse_replicate, dropWhile_pad_append,
    dropWhile_of_head_ne _ (fun ch hch => hX ch (List.mem_reverse.mp hch)),
    List.reverse_reverse]

theorem toBase64Url_roundTrip (units : List Nat) (h : ∀ u ∈ units, u < 256) :
    ∃ e, toBase64Url units = some e ∧ fromBase64Url e = some units := by
  obtain ⟨body, p, hsplit, hp, hbody, hmod⟩ := b64enc_split units h
  have hbtoa : jsBtoa units = some (b64enc units) := by
    unfold jsBtoa
    rw [if_pos (by rw [List.all_eq_true]; intro u hu; simpa using h u hu)]
  have hmapne : ∀ ch ∈ body.map urlChar, ch ≠ 61 := by
    intro ch hch
    rw [List.mem_map] at hch
    obtain ⟨a, ha, rfl⟩ := hch
    obtain ⟨s, hs, rfl⟩ := hbody a ha
    exact urlChar_b64alpha_ne_pad s hs
  have hurl : toBase64Url units = some (body.map urlChar) := by
    unfold toBase64Url
    rw [hbtoa]
    simp only [Option.map_some']
    congr 1
    rw [hsplit, List.map_append, List.map_replicate]
    have : urlChar 61 = 61 := rfl
    rw [this, stripPad_append_pad _ _ hmapne]
  refine ⟨body.map urlChar, hurl, ?_⟩
  have hlen : (body.map urlChar).length = body.length := List.length_map _ _
  have hpad : (4 - (body.map urlChar).length % 4) % 4 = p := by
    rw [hlen]
    omega
  have hstd : (body.map urlChar).map stdChar = body := by
    rw [List.map_map]
    have hid : ∀ a ∈ body, (stdChar ∘ urlChar) a = a := by
      intro a ha
      obtain ⟨s, hs, rfl⟩ := hbody a ha
      exact b64alpha_mapRound s hs
    rw [List.map_congr_left hid, List.map_id']
  show atobGroups ((body.map urlChar).map stdChar ++
    List.replicate ((4 - (body.map urlChar).length % 4) % 4) 61) = some units
  rw [hpad, hstd, ← hsplit]
  exact atobGroups_b64enc units h

/-! ## Lemmas: payload codec -/

theorem parseLit_append (lit rest : List Nat) : parseLit lit (lit ++ rest) = some rest := by
  unfold parseLit
  rw [if_pos, List.drop_left]
  rw [List.take_left]

theorem takeWhile_digits_append (ds rest : List Nat)
    (hds : ∀ d ∈ ds, (48 ≤ d && d ≤ 57) = true)
    (hrest : rest = [] ∨ ∃ c cs, rest = c :: cs ∧ (48 ≤ c && c ≤ 57) = false) :
    (ds ++ rest).takeWhile (fun c => 48 ≤ c && c ≤ 57) = ds ∧
      (ds ++ rest).dropWhile (fun c => 48 ≤ c && c ≤ 57) = rest := by
  induction ds with
  | nil =>
    simp only [List.nil_append]
    rcases hrest with rfl | ⟨c, cs, rfl, hc⟩
    · exact ⟨rfl, rfl⟩
    · rw [List.takeWhile_cons_of_neg (by simp [hc]), List.dropWhile_cons_of_neg (by simp [hc])]
      exact ⟨rfl, rfl⟩
  | cons d tl ih =>
    have hd : (48 ≤ d && d ≤ 57) = true := hds d (by simp)
    obtain ⟨ih1, ih2⟩ := ih (fun x hx => hds x (by simp [hx]))
    rw [List.cons_append, List.takeWhile_cons_of_pos (by simp_all),
      List.dropWhile_cons_of_pos (by simp_all)]
    exact ⟨by rw [ih1], ih2⟩

theorem smallNat_digits : ∀ n, n < 13 →
    (strBytes (toString n)).isEmpty = false ∧
    (∀ d ∈ strBytes (toString n), (48 ≤ d && d ≤ 57) = true) ∧
    (strBytes (toString n)).foldl (fun a c => 10 * a + (c - 48)) 0 = n := by decide

theorem parseNatBytes_append (n : Nat) (hn : n < 13) (rest : List Nat)
    (hrest : rest = [] ∨ ∃ c cs, rest = c :: cs ∧ (48 ≤ c && c ≤ 57) = false) :
    parseNatBytes (strBytes (toString n) ++ rest) = some (n, rest) := by
  obtain ⟨hne, hdig, hval⟩ := smallNat_digits n hn
  obtain ⟨htake, hdrop⟩ := takeWhile_digits_append (strBytes (toString n)) rest hdig hrest
  unfold parseNatBytes
  rw [htake, hdrop, if_neg (by simp_all), hval]

theorem parseQuoted_append (s rest : List Nat) (hs : ∀ ch ∈ s, ch ≠ 34) :
    parseQuoted (s ++ 34 :: rest) = some (s, rest) := by
  induction s with
  | nil =>
    rw [List.nil_append, parseQuoted, if_pos rfl]
  | cons c cs ih =>
    have hc : c ≠ 34 := hs c (by simp)
    rw [List.cons_append, parseQuoted, if_neg hc, ih (fun x hx => hs x (by simp [hx]))]
    rfl

theorem char_ofNat_toNat_map (s : String) : bytesToStr (strBytes s) = s := by
  unfold bytesToStr strBytes
  rw [List.map_map]
  have hid : ∀ c ∈ s.data, (Char.ofNat ∘ Char.toNat) c = c := by
    intro c _
    simp only [Function.comp_apply]
    exact Char.ofNat_toNat c
  rw [List.map_congr_left hid, List.map_id']

theorem parseMove_moveJson (ty dir : String) (idx : Nat) (rest : List Nat)
    (hty : ty = "row" ∨ ty = "column")
    (hdir : dir = "left" ∨ dir = "right" ∨ dir = "up" ∨ dir = "down")
    (hidx : idx < 13) :
    parseMove (moveJson ⟨ty, idx, dir⟩ ++ rest) = some (⟨ty, idx, dir⟩, rest) := by
  have htyq : ∀ ch ∈ strBytes ty, ch ≠ 34 := by
    rcases hty with rfl | rfl <;> decide
  have hdirq : ∀ ch ∈ strBytes dir, ch ≠ 34 := by
    rcases hdir with rfl | rfl | rfl | rfl <;> decide
  have e1 : strBytes "\",\"index\":" = 34 :: strBytes ",\"index\":" := by decide
  have e2 : strBytes ",\"direction\":\"" = 44 :: strBytes "\"direction\":\"" := by decide
  have e3 : strBytes "\"\x7d" = 34 :: strBytes "\x7d" := by decide
  have hinput : moveJson ⟨ty, idx, dir⟩ ++ rest =
      strBytes "\x7b\"type\":\"" ++ (strBytes ty ++ (34 :: (strBytes ",\"index\":" ++
        (strBytes (toString idx) ++ (strBytes ",\"direction\":\"" ++
          (strBytes dir ++ (34 :: (strBytes "\x7d" ++ rest)))))))) := by
    unfold moveJson
    rw [e1, e3]
    simp only [List.append_assoc, List.cons_append]
  rw [hinput]
  unfold parseMove
  rw [parseLit_append]
  simp only [Option.some_bind]
  rw [parseQuoted_append _ _ htyq]
  simp only [Option.some_bind]
  rw [parseLit_append]
  simp only [Option.some_bind]
  rw [parseNatBytes_append idx hidx _
    (Or.inr ⟨44, strBytes "\"direction\":\"" ++ (strBytes dir ++
      (34 :: (strBytes "\x7d" ++ rest))), by rw [e2, List.cons_append], by decide⟩)]
  simp only [Option.some_bind]
  rw [parseLit_append]
  simp only [Option.some_bind]
  rw [parseQuoted_append _ _ hdirq]
  simp only [Option.some_bind]
  rw [parseLit_append]
  simp only [Option.map_some']
  rw [char_ofNat_toNat_map, char_ofNat_toNat_map]

theorem specMoveOk_wf {n : Nat} (hn : n ≤ 12) {m : SpecMove} (h : specMoveOk n m = true) :
    MoveWf m := by
  unfold specMoveOk at h
  simp only [Bool.and_eq_true, Bool.or_eq_true, beq_iff_eq, decide_eq_true_eq] at h
  obtain ⟨⟨hty, hidx1⟩, hidx2⟩ := h
  refine ⟨by tauto, by tauto, by omega⟩

theorem intercalate_singleton_44 (x : List Nat) : List.intercalate [44] [x] = x := by
  simp [List.intercalate]

theorem intercalate_cons2_44 (x y : List Nat) (zs : List (List Nat)) :
    List.intercalate [44] (x :: y :: zs) = x ++ 44 :: List.intercalate [44] (y :: zs) := by
  simp [List.intercalate, List.intersperse]

theorem moveJson_cons (m : SpecMove) : ∃ t, moveJson m = 123 :: t :=
  ⟨_, rfl⟩

theorem parseMovesAux_intercalate :
    ∀ (seq : List SpecMove) (fuel : Nat) (rest : List Nat), seq ≠ [] →
      seq.length ≤ fuel → (∀ m ∈ seq, MoveWf m) →
      parseMovesAux fuel (List.intercalate [44] (seq.map moveJson) ++ 93 :: rest) =
        some (seq, rest) := by
  intro seq
  induction seq with
  | nil => intro fuel rest hne _ _; exact absurd rfl hne
  | cons m tl ih =>
    intro fuel rest _ hfuel hwf
    obtain ⟨hty, hdir, hidx⟩ := hwf m (by simp)
    obtain ⟨f, rfl⟩ : ∃ f, fuel = f + 1 := by
      rcases fuel with _ | f
      · simp at hfuel
      · exact ⟨f, rfl⟩
    obtain ⟨ty, idx, dir⟩ := m
    cases tl with
    | nil =>
      simp only [List.map_cons, List.map_nil]
      rw [intercalate_singleton_44]
      unfold parseMovesAux
      rw [parseMove_moveJson ty dir idx (93 :: rest) hty hdir hidx]
      rfl
    | cons m2 tl2 =>
      simp only [List.map_cons]
      rw [show (moveJson ⟨ty, idx, dir⟩ :: moveJson m2 :: tl2.map moveJson) =
        (moveJson ⟨ty, idx, dir⟩ :: (moveJson m2 :: tl2.map moveJson)) from rfl,
        intercalate_cons2_44, List.append_assoc, List.cons_append]
      unfold parseMovesAux
      rw [parseMove_moveJson ty dir idx _ hty hdir hidx]
      simp only [Option.some_bind]
      rw [show ((List.intercalate [44] (moveJson m2 :: tl2.map moveJson)) ++ 93 :: rest) =
        (List.intercalate [44] ((m2 :: tl2).map moveJson) ++ 93 :: rest) by
          simp only [List.map_cons]]
      rw [ih f rest (by simp) (by simpa using hfuel) (fun mv hmv => hwf mv (by simp [hmv]))]
      rfl

theorem intercalate_moveJson_length (seq : List SpecMove) :
    seq.length ≤ (List.intercalate [44] (seq.map moveJson)).length := by
  induction seq with
  | nil => simp
  | cons m tl ih =>
    obtain ⟨t, ht⟩ := moveJson_cons m
    cases tl with
    | nil =>
      simp only [List.map_cons, List.map_nil, intercalate_singleton_44, ht]
      simp
    | cons m2 tl2 =>
      simp only [List.map_cons] at ih ⊢
      rw [intercalate_cons2_44, List.length_append, List.length_cons, ht]
      simp only [List.length_cons] at ih ⊢
      omega

theorem parseSeq_intercalate (seq : List SpecMove) (rest : List Nat)
    (hwf : ∀ m ∈ seq, MoveWf m) :
    parseSeq (List.intercalate [44] (seq.map moveJson) ++ 93 :: rest) =
      some (seq, rest) := by
  cases seq with
  | nil =>
    have hnil : List.intercalate [44] (List.map moveJson []) = [] := by
      simp [List.intercalate]
    rw [hnil, List.nil_append]
    unfold parseSeq
    rw [if_pos (show List.take 1 (93 :: rest) = [93] from rfl)]
    rfl
  | cons m tl =>
    obtain ⟨t, ht⟩ := moveJson_cons m
    have hhead : ∃ t', List.intercalate [44] ((m :: tl).map moveJson) ++ 93 :: rest =
        123 :: t' := by
      cases tl with
      | nil =>
        refine ⟨t ++ 93 :: rest, ?_⟩
        simp only [List.map_cons, List.map_nil, intercalate_singleton_44, ht, List.cons_append]
      | cons m2 tl2 =>
        refine ⟨(t ++ 44 :: List.intercalate [44] ((m2 :: tl2).map moveJson)) ++ 93 :: rest, ?_⟩
        simp only [List.map_cons, intercalate_cons2_44, ht, List.cons_append,
          List.append_assoc]
    obtain ⟨t', ht'⟩ := hhead
    unfold parseSeq
    rw [ht']
    rw [if_neg (by simp)]
    rw [← ht']
    have hlen : (m :: tl).length ≤
        (List.intercalate [44] ((m :: tl).map moveJson) ++ 93 :: rest).length := by
      rw [List.length_append]
      have := intercalate_moveJson_length (m :: tl)
      omega
    exact parseMovesAux_intercalate (m :: tl) _ rest (by simp) hlen hwf

theorem payloadOk_parts {p : SharePayload} (h : payloadOk p = true) :
    2 ≤ p.size ∧ p.size ≤ 12 ∧ ∀ m ∈ p.seq, specMoveOk p.size m = true := by
  unfold payloadOk at h
  simp only [Bool.and_eq_true, decide_eq_true_eq, List.all_eq_true] at h
  exact ⟨h.1.1, h.1.2, h.2⟩

theorem parsePayload_payloadJson (p : SharePayload) (hok : payloadOk p = true) :
    parsePayload (payloadJson p) = some p := by
  obtain ⟨h2, h12, hmoves⟩ := payloadOk_parts hok
  have hwf : ∀ m ∈ p.seq, MoveWf m := fun m hm => specMoveOk_wf h12 (hmoves m hm)
  have e1 : strBytes ",\"seq\":[" = 44 :: strBytes "\"seq\":[" := by decide
  have e2 : strBytes "]\x7d" = 93 :: strBytes "\x7d" := by decide
  obtain ⟨size, seq⟩ := p
  dsimp only at h2 h12 hmoves hwf hok
  have hinput : payloadJson ⟨size, seq⟩ =
      strBytes "\x7b\"size\":" ++ (strBytes (toString size) ++
        (strBytes ",\"seq\":[" ++
          (List.intercalate [44] (seq.map moveJson) ++ 93 :: strBytes "\x7d"))) := by
    unfold payloadJson
    rw [e2]
    simp only [List.append_assoc, List.cons_append]
  rw [hinput]
  unfold parsePayload
  rw [parseLit_append]
  simp only [Option.some_bind]
  rw [parseNatBytes_append size (by omega) _
    (Or.inr ⟨44, strBytes "\"seq\":[" ++
      (List.intercalate [44] (seq.map moveJson) ++ 93 :: strBytes "\x7d"),
      by rw [e1, List.cons_append], by decide⟩)]
  simp only [Option.some_bind]
  rw [parseLit_append]
  simp only [Option.some_bind]
  rw [parseSeq_intercalate seq _ hwf]
  simp only [Option.some_bind]
  have hself : parseLit (strBytes "\x7d") (strBytes "\x7d") = some [] := by
    have := parseLit_append (strBytes "\x7d") []
    rwa [List.append_nil] at this
  rw [hself]
  simp only [Option.some_bind]
  rw [if_pos]
  simp only [List.isEmpty_nil, Bool.true_and]
  exact hok

theorem smallNat_bytes_lt : ∀ n, n < 13 → ∀ b ∈ strBytes (toString n), b < 256 := by decide

theorem moveJson_bytes_lt (m : SpecMove) (hm : MoveWf m) :
    ∀ b ∈ moveJson m, b < 256 := by
  obtain ⟨hty, hdir, hidx⟩ := hm
  intro b hb
  have l1 : ∀ x ∈ strBytes "\x7b\"type\":\"", x < 256 := by decide
  have l2 : ∀ x ∈ strBytes "\",\"index\":", x < 256 := by decide
  have l3 : ∀ x ∈ strBytes ",\"direction\":\"", x < 256 := by decide
  have l4 : ∀ x ∈ strBytes "\"\x7d", x < 256 := by decide
  have lrow : ∀ x ∈ strBytes "row", x < 256 := by decide
  have lcol : ∀ x ∈ strBytes "column", x < 256 := by decide
  have lleft : ∀ x ∈ strBytes "left", x < 256 := by decide
  have lright : ∀ x ∈ strBytes "right", x < 256 := by decide
  have lup : ∀ x ∈ strBytes "up", x < 256 := by decide
  have ldown : ∀ x ∈ strBytes "down", x < 256 := by decide
  unfold moveJson at hb
  simp only [List.mem_append] at hb
  rcases hb with ((((((hb | hb) | hb) | hb) | hb) | hb) | hb)
  · exact l1 b hb
  · rcases hty with h | h <;> rw [h] at hb
    · exact lrow b hb
    · exact lcol b hb
  · exact l2 b hb
  · exact smallNat_bytes_lt m.index hidx b hb
  · exact l3 b hb
  · rcases hdir with h | h | h | h <;> rw [h] at hb
    · exact lleft b hb
    · exact lright b hb
    · exact lup b hb
    · exact ldown b hb
  · exact l4 b hb

theorem intercalate_moveJson_bytes_lt (seq : List SpecMove) (hwf : ∀ m ∈ seq, MoveWf m) :
    ∀ b ∈ List.intercalate [44] (seq.map moveJson), b < 256 := by
  induction seq with
  | nil => simp [List.intercalate]
  | cons m tl ih =>
    intro b hb
    cases tl with
    | nil =>
      simp only [List.map_cons, List.map_nil, intercalate_singleton_44] at hb
      exact moveJson_bytes_lt m (hwf m (by simp)) b hb
    | cons m2 tl2 =>
      simp only [List.map_cons] at hb ih
      rw [intercalate_cons2_44] at hb
      simp only [List.mem_append, List.mem_cons] at hb
      rcases hb with hb | rfl | hb
      · exact moveJson_bytes_lt m (hwf m (by simp)) b hb
      · omega
      · exact ih (fun mv hmv => hwf mv (by simp_all)) b hb

theorem payloadJson_bytes_lt (p : SharePayload) (hok : payloadOk p = true) :
    ∀ b ∈ payloadJson p, b < 256 := by
  obtain ⟨h2, h12, hmoves⟩ := payloadOk_parts hok
  intro b hb
  have l1 : ∀ x ∈ strBytes "\x7b\"size\":", x < 256 := by decide
  have l2 : ∀ x ∈ strBytes ",\"seq\":[", x < 256 := by decide
  have l3 : ∀ x ∈ strBytes "]\x7d", x < 256 := by decide
  unfold payloadJson at hb
  simp only [List.mem_append] at hb
  rcases hb with (((hb | hb) | hb) | hb) | hb
  · exact l1 b hb
  · exact smallNat_bytes_lt p.size (by omega) b hb
  · exact l2 b hb
  · exact intercalate_moveJson_bytes_lt p.seq
      (fun m hm => specMoveOk_wf h12 (hmoves m hm)) b hb
  · exact l3 b hb

theorem encodeShare_decodeShare (p : SharePayload) (hok : payloadOk p = true) :
    ∃ e, encodeShare p = some e ∧ decodeShare e = some p := by
  obtain ⟨e, henc, hdec⟩ := toBase64Url_roundTrip (payloadJson p) (payloadJson_bytes_lt p hok)
  refine ⟨e, henc, ?_⟩
  unfold decodeShare
  rw [hdec]
  simp only [Option.some_bind]
  exact parsePayload_payloadJson p hok

/-! ## Lemmas: shift inverses, share load, query bounds -/

theorem mod_shift_fwd_bwd (n x : Nat) (hn : 1 ≤ n) (hx : x < n) :
    ((x + 1) % n + (n - 1)) % n = x := by
  rw [Nat.mod_add_mod]
  have : x + 1 + (n - 1) = x + n := by omega
  rw [this, Nat.add_mod_right, Nat.mod_eq_of_lt hx]

theorem mod_shift_bwd_fwd (n x : Nat) (hn : 1 ≤ n) (hx : x < n) :
    ((x + (n - 1)) % n + 1) % n = x := by
  rw [Nat.mod_add_mod]
  have : x + (n - 1) + 1 = x + n := by omega
  rw [this, Nat.add_mod_right, Nat.mod_eq_of_lt hx]

theorem shareLoad_some {n : Nat} {decoded : Js} {seq : List JsMove}
    (h : shareLoad n decoded = some seq) :
    truthy decoded = true ∧ getField decoded "size" = Js.num ((n : Nat) : Int) ∧
      ∃ l, getField decoded "seq" = Js.arr l ∧ seq = l.map mapSharedMove := by
  unfold shareLoad at h
  by_cases hc : (truthy decoded && sizeMatches (getField decoded "size") n
      && isArray (getField decoded "seq")) = true
  · rw [if_pos hc] at h
    simp only [Bool.and_eq_true] at hc
    obtain ⟨⟨ht, hsz⟩, harr⟩ := hc
    refine ⟨ht, ?_, ?_⟩
    · unfold sizeMatches at hsz
      rcases hv : getField decoded "size" with _ | _ | _ | k | _ | _ | _ <;> rw [hv] at hsz <;>
        simp_all
    · obtain ⟨l, hl⟩ : ∃ l, getField decoded "seq" = Js.arr l := by
        rcases ha : getField decoded "seq" with _ | _ | _ | _ | _ | l | _ <;>
          rw [ha] at harr <;> simp [isArray] at harr
        exact ⟨l, rfl⟩
      rw [hl] at h
      dsimp only at h
      refine ⟨l, hl, ?_⟩
      rcases happ : applySequence (buildTileBoard n (solvedLetters n))
          ((arrElems (Js.arr l)).map mapSharedMove) with b' | b' <;> rw [happ] at h
      · simpa [arrElems] using h.symm
      · exact absurd h (by simp)
  · rw [if_neg hc] at h
    exact absurd h (by simp)

theorem parseQuerySize_bounds (q : Option String) :
    2 ≤ parseQuerySize q ∧ parseQuerySize q ≤ 12 := by
  unfold parseQuerySize clampInt
  rcases jsParseInt (match q with | none => "6" | some s => if s = "" then "6" else s)
    with _ | v
  · exact ⟨le_refl _, by norm_num⟩
  · constructor
    · exact le_max_left _ _
    · exact max_le (by norm_num) (min_le_left _ _)

theorem parseQuerySizeNat_bounds (q : Option String) :
    2 ≤ parseQuerySizeNat q ∧ parseQuerySizeNat q ≤ 12 := by
  obtain ⟨h1, h2⟩ := parseQuerySize_bounds q
  unfold parseQuerySizeNat
  omega

theorem jsIsStr_ne {v : Js} {s t : String} (h : jsIsStr v s = true) (hst : s ≠ t) :
    jsIsStr v t = false := by
  rcases hv : v with _ | _ | _ | _ | u | _ | _ <;> rw [hv] at h <;> simp_all [jsIsStr]

/-! ## Claim theorems -/

/-- C1 (counterexample): the claim says every move with an invalid direction is
rejected with a signaled error, distinguishable from a successful no-op, on an
otherwise unmutated board. On the concrete 2×2 board, the row move with the
invalid direction `"up"` completes normally with the board unchanged — exactly
the outcome of a successful no-op, with no error signaled. -/
theorem claim_C1_counterexample :
    applyMove [[some (1 : Nat), some 2], [some 3, some 4]]
      ⟨Js.str "row", some 1, Js.str "up"⟩ =
      MoveOutcome.ok [[some (1 : Nat), some 2], [some 3, some 4]] := by decide

/-- C1 (amended): `applyMove` performs no validation. A move whose type is not
row/column, or whose direction is invalid for its type, is silently ignored:
it returns normally with the board unmutated, indistinguishable from a
successful no-op. A row move with an index outside `[1,N]` (or `NaN`) is not
checked either: it throws a `TypeError` from the out-of-bounds access, leaving
the board unmutated; a column move with such an index completes without error
and leaves every in-range cell unchanged. -/
theorem claim_C1_no_validation :
    (∀ (α : Type) (b : JsBoard α) (m : JsMove), BadTypeOrDir m →
      applyMove b m = MoveOutcome.ok b) ∧
    (∀ (α : Type) (n : Nat) (b : JsBoard α) (m : JsMove),
      ValidBoard n b → jsIsStr m.type "row" = true →
      (jsIsStr m.direction "left" = true ∨ jsIsStr m.direction "right" = true) →
      (m.index = none ∨ ∃ i, m.index = some i ∧ (i < 1 ∨ (n : Int) < i)) →
      applyMove b m = MoveOutcome.thrown b) ∧
    (∀ (α : Type) (n : Nat) (b : JsBoard α) (m : JsMove),
      ValidBoard n b → 1 ≤ n → jsIsStr m.type "column" = true →
      (jsIsStr m.direction "up" = true ∨ jsIsStr m.direction "down" = true) →
      (m.index = none ∨ ∃ i, m.index = some i ∧ (i < 1 ∨ (n : Int) < i)) →
      ∃ b', applyMove b m = MoveOutcome.ok b' ∧
        ∀ r c, r < n → c < n → cellAt b' r c = cellAt b r c) := by
  refine ⟨fun α b m hbad => applyMove_bad b m hbad, ?_, ?_⟩
  · intro α n b m hb hty hd hidx
    exact applyMove_row_oob b m hb.1 hty hd hidx
  · intro α n b m hb hn hty hd hidx
    exact applyMove_col_oob b m hb hn hty hd hidx

/-- C1 (witness): the three amended clauses at concrete inputs on a 2×2
board. -/
theorem claim_C1_witness :
    applyMove [[some (1 : Nat), some 2], [some 3, some 4]]
      ⟨Js.str "row", some 1, Js.str "sideways"⟩ =
      MoveOutcome.ok [[some (1 : Nat), some 2], [some 3, some 4]] ∧
    applyMove [[some (1 : Nat), some 2], [some 3, some 4]]
      ⟨Js.str "row", some 9, Js.str "left"⟩ =
      MoveOutcome.thrown [[some (1 : Nat), some 2], [some 3, some 4]] ∧
    ∃ b', applyMove [[some (1 : Nat), some 2], [some 3, some 4]]
        ⟨Js.str "column", some 9, Js.str "up"⟩ = MoveOutcome.ok b' ∧
      ∀ r c, r < 2 → c < 2 →
        cellAt b' r c = cellAt [[some (1 : Nat), some 2], [some 3, some 4]] r c :=
  ⟨claim_C1_no_validation.1 Nat _ _ (by decide),
    claim_C1_no_validation.2.1 Nat 2 _ _ (by decide) rfl (Or.inl rfl)
      (Or.inr ⟨9, rfl, by decide⟩),
    claim_C1_no_validation.2.2 Nat 2 _ _ (by decide) (by decide) rfl (Or.inl rfl)
      (Or.inr ⟨9, rfl, by decide⟩)⟩

/-- C2 (counterexample): the claim says that when any move of a sequence is
invalid, nothing at all is applied. On the concrete 2×2 board, the sequence
whose second move has an out-of-range index aborts with a throw — but the
first move has already been applied, leaving the board mutated. -/
theorem claim_C2_counterexample :
    applySequence [[some (1 : Nat), some 2], [some 3, some 4]]
      [⟨Js.str "row", some 1, Js.str "left"⟩, ⟨Js.str "row", some 9, Js.str "left"⟩] =
      MoveOutcome.thrown [[some (2 : Nat), some 1], [some 3, some 4]] ∧
    [[some (2 : Nat), some 1], [some 3, some 4]] ≠
      [[some (1 : Nat), some 2], [some 3, some 4]] := by decide

/-- C2 (amended): `applySequence` does not pre-validate. When every move of
the sequence is valid, all are applied strictly in order (the result is the
left fold of single-move applications, and no throw occurs); but an invalid
move is only discovered during application: a silently-ignored invalid move
(bad type/direction) is skipped in place while the rest still applies, and a
throwing one aborts mid-sequence with all earlier moves already applied (see
the counterexample). -/
theorem claim_C2_no_prevalidation :
    (∀ (α : Type) (n : Nat) (b : JsBoard α) (seq : List JsMove),
      ValidBoard n b → (∀ m ∈ seq, ValidMove n m) →
      applySequence b seq = MoveOutcome.ok (seq.foldl applyMove1 b)) ∧
    (∀ (α : Type) (b : JsBoard α) (m : JsMove) (rest : List JsMove),
      BadTypeOrDir m → applySequence b (m :: rest) = applySequence b rest) := by
  constructor
  · intro α n b seq hb hms
    exact (applySequence_valid seq b hb hms).1
  · intro α b m rest hbad
    show (match applyMove b m with
      | MoveOutcome.ok b' => applySequence b' rest
      | MoveOutcome.thrown b' => MoveOutcome.thrown b') = applySequence b rest
    rw [applyMove_bad b m hbad]

/-- C2 (witness): both amended clauses at concrete inputs on a 2×2 board. -/
theorem claim_C2_witness :
    applySequence [[some (1 : Nat), some 2], [some 3, some 4]]
      [⟨Js.str "row", some 1, Js.str "left"⟩] =
      MoveOutcome.ok ([⟨Js.str "row", some 1, Js.str "left"⟩].foldl applyMove1
        [[some (1 : Nat), some 2], [some 3, some 4]]) ∧
    applySequence [[some (1 : Nat), some 2], [some 3, some 4]]
      (⟨Js.str "row", some 1, Js.str "up"⟩ :: [⟨Js.str "row", some 1, Js.str "left"⟩]) =
      applySequence [[some (1 : Nat), some 2], [some 3, some 4]]
        [⟨Js.str "row", some 1, Js.str "left"⟩] :=
  ⟨claim_C2_no_prevalidation.1 Nat 2 _ _ (by decide) (by decide),
    claim_C2_no_prevalidation.2 Nat _ _ _ (by decide)⟩

/-- C5 (counterexample): the claim says changing only the salt changes the
sequence content. With an explicit count of 0 — a legal `explicitCount`
input — two different salts produce the identical (empty) sequence. -/
theorem claim_C5_counterexample :
    generateDeterministicSequence "000000000000" 2 (some 0) "a" =
      generateDeterministicSequence "000000000000" 2 (some 0) "b" ∧
    ("a" : String) ≠ "b" := ⟨rfl, by decide⟩

/-- C5 (amended): `generateDeterministicSequence` is a pure deterministic
function of (version, size, explicitCount, salt) — definitionally in this
model — and changing only the salt never changes the sequence length; it does
not always change the content (see the counterexample). -/
theorem claim_C5_salt_independent_length :
    ∀ (version salt1 salt2 : String) (size : Nat) (moves : Option Nat),
      (generateDeterministicSequence version size moves salt1).length =
        (generateDeterministicSequence version size moves salt2).length := by
  intro version salt1 salt2 size moves
  rw [generateDeterministicSequence_length, generateDeterministicSequence_length]

/-- C6: the shuffle count is `randint(size, size*size*2)` drawn from the
stream seeded by `"ShuffleCount_v{version}_{size}"` — a string that contains
no salt, so the count depends on version and size only. Its value lies in
`[size, 2*size*size]`, and `generateDeterministicSequence` without an explicit
count produces exactly that many moves for every salt. -/
theorem claim_C6_shuffle_count :
    ∀ (version : String) (size : Nat), 2 ≤ size → size ≤ 12 →
      size ≤ getDeterministicShuffleCount version size ∧
      getDeterministicShuffleCount version size ≤ 2 * size * size ∧
      ∀ salt, (generateDeterministicSequence version size none salt).length =
        getDeterministicShuffleCount version size := by
  intro version size h2 h12
  obtain ⟨hlo, hhi⟩ := getDeterministicShuffleCount_bounds version size h2
  refine ⟨hlo, hhi, fun salt => ?_⟩
  rw [generateDeterministicSequence_length]

/-- C6 (witness): size 3 with a fixed version string — the count is in
`[3, 18]` and the generated sequence has exactly that length. -/
theorem claim_C6_witness :
    3 ≤ getDeterministicShuffleCount "202501010000" 3 ∧
    getDeterministicShuffleCount "202501010000" 3 ≤ 2 * 3 * 3 ∧
    ∀ salt, (generateDeterministicSequence "202501010000" 3 none salt).length =
      getDeterministicShuffleCount "202501010000" 3 :=
  claim_C6_shuffle_count "202501010000" 3 (by decide) (by decide)

/-- C9: `hash32` returns a 32-bit unsigned value, and the implementation's
shift/add/xor steps with JavaScript coercions are bit-for-bit the djb2-family
recurrence `h := (h * 33) XOR charCode` starting from 5381 with every
intermediate step wrapping at exactly 2^32. -/
theorem claim_C9_hash32_djb2 : ∀ s : String, hash32 s < TWO32 ∧ hash32 s = hash32Spec s := by
  intro s
  obtain ⟨heq, hlt⟩ := hash32_foldl_eq (strUnits s) 5381 (by norm_num [TWO32]) (strUnits_lt s)
  exact ⟨hlt, heq⟩

/-- C10 (counterexample): the claim says a present, non-numeric size parameter
(`parseInt` yields `NaN`) makes `parseQuery` return the clamp bound 2. The
empty string is present and parses to `NaN`, yet the `|| "6"` fallback treats
it as absent and the result is the default 6, not 2. -/
theorem claim_C10_counterexample :
    jsParseInt "" = none ∧ parseQuerySize (some "") = 6 := by decide

/-- C10 (amended): `parseQuery` always yields a size in `[2,12]`; an absent or
empty `size` parameter yields the default 6; a present, non-empty parameter on
which `parseInt` yields `NaN` is clamped to the lower bound 2. -/
theorem claim_C10_size_clamping :
    (∀ q : Option String, 2 ≤ parseQuerySize q ∧ parseQuerySize q ≤ 12) ∧
    parseQuerySize none = 6 ∧ parseQuerySize (some "") = 6 ∧
    (∀ s : String, s ≠ "" → jsParseInt s = none → parseQuerySize (some s) = 2) := by
  refine ⟨parseQuerySize_bounds, by decide, by decide, ?_⟩
  intro s hne hnan
  show clampInt (jsParseInt (if s = "" then "6" else s)) 2 12 = 2
  rw [if_neg hne, hnan]
  rfl

/-- C10 (witness): the amended clauses at concrete inputs. -/
theorem claim_C10_witness :
    (2 ≤ parseQuerySize (some "7") ∧ parseQuerySize (some "7") ≤ 12) ∧
    parseQuerySize (some "abc") = 2 :=
  ⟨claim_C10_size_clamping.1 (some "7"),
    claim_C10_size_clamping.2.2.2 "abc" (by decide) (by decide)⟩

/-- C3: on a valid `N×N` board, every valid move performs exactly a
one-position cyclic rotation of the addressed line: row left moves every tile
one position toward index 0 with index 0 wrapping to `N-1` (new cell `c` holds
the old cell `(c+1) mod N`), row right is the exact inverse (`(c+N-1) mod N`),
column up/down are the same rotations along the column — and every cell
outside the addressed line is unchanged. -/
theorem claim_C3_cyclic_line_shift :
    ∀ (α : Type) (n : Nat) (b : JsBoard α) (m : JsMove) (i : Int),
      ValidBoard n b → ValidMove n m → m.index = some i →
      ∃ b', applyMove b m = MoveOutcome.ok b' ∧
        ∀ r c, r < n → c < n →
          cellAt b' r c =
            if jsIsStr m.type "row" = true then
              if r = (i - 1).toNat then
                cellAt b r ((c + (if jsIsStr m.direction "left" = true then 1 else n - 1)) % n)
              else cellAt b r c
            else
              if c = (i - 1).toNat then
                cellAt b ((r + (if jsIsStr m.direction "up" = true then 1 else n - 1)) % n) c
              else cellAt b r c := by
  intro α n b m i hb hm hidx
  obtain ⟨hcases, line, hline, hidx'⟩ := validMove_parts hm
  have hi : i = ((line + 1 : Nat) : Int) := by
    rw [hidx] at hidx'
    exact Option.some.inj hidx'
  have htoNat : (i - 1).toNat = line := by rw [hi]; omega
  rcases hcases with ⟨hty, hl | hr⟩ | ⟨hty, hu | hd⟩
  · obtain ⟨b', happ, _, hcells⟩ := applyMove_row_left hb hline hty hl hidx'
    refine ⟨b', happ, fun r c hr hc => ?_⟩
    rw [hcells r c hr hc, if_pos hty, htoNat, if_pos hl]
  · obtain ⟨b', happ, _, hcells⟩ := applyMove_row_right hb hline hty hr hidx'
    have hlf : jsIsStr m.direction "left" = false := jsIsStr_ne hr (by decide)
    have hlne : ¬ (jsIsStr m.direction "left" = true) := by rw [hlf]; exact Bool.false_ne_true
    refine ⟨b', happ, fun r c hrr hc => ?_⟩
    rw [hcells r c hrr hc, if_pos hty, htoNat, if_neg hlne]
  · obtain ⟨b', happ, _, hcells⟩ := applyMove_col_up hb hline hty hu hidx'
    have hrowf : jsIsStr m.type "row" = false := jsIsStr_ne hty (by decide)
    have hrowne : ¬ (jsIsStr m.type "row" = true) := by rw [hrowf]; exact Bool.false_ne_true
    refine ⟨b', happ, fun r c hr hc => ?_⟩
    rw [hcells r c hr hc, if_neg hrowne, htoNat, if_pos hu]
  · obtain ⟨b', happ, _, hcells⟩ := applyMove_col_down hb hline hty hd hidx'
    have hrowf : jsIsStr m.type "row" = false := jsIsStr_ne hty (by decide)
    have hrowne : ¬ (jsIsStr m.type "row" = true) := by rw [hrowf]; exact Bool.false_ne_true
    have huf : jsIsStr m.direction "up" = false := jsIsStr_ne hd (by decide)
    have hune : ¬ (jsIsStr m.direction "up" = true) := by rw [huf]; exact Bool.false_ne_true
    refine ⟨b', happ, fun r c hr hc => ?_⟩
    rw [hcells r c hr hc, if_neg hrowne, htoNat, if_neg hune]

/-- C3 (witness): a concrete row-left move on a 2×2 board. -/
theorem claim_C3_witness :
    ∃ b', applyMove [[some (1 : Nat), some 2], [some 3, some 4]]
        ⟨Js.str "row", some 1, Js.str "left"⟩ = MoveOutcome.ok b' ∧
      ∀ r c, r < 2 → c < 2 →
        cellAt b' r c =
          if jsIsStr (Js.str "row") "row" = true then
            if r = ((1 : Int) - 1).toNat then
              cellAt [[some (1 : Nat), some 2], [some 3, some 4]] r
                ((c + (if jsIsStr (Js.str "left") "left" = true then 1 else 2 - 1)) % 2)
            else cellAt [[some (1 : Nat), some 2], [some 3, some 4]] r c
          else
            if c = ((1 : Int) - 1).toNat then
              cellAt [[some (1 : Nat), some 2], [some 3, some 4]]
                ((r + (if jsIsStr (Js.str "left") "up" = true then 1 else 2 - 1)) % 2) c
            else cellAt [[some (1 : Nat), some 2], [some 3, some 4]] r c :=
  claim_C3_cyclic_line_shift Nat 2 [[some 1, some 2], [some 3, some 4]]
    ⟨Js.str "row", some 1, Js.str "left"⟩ 1 (by decide) (by decide) rfl

/-- C4: applying a valid move and then the move with the inverse direction on
the same line restores the board exactly. -/
theorem claim_C4_inverse_restores :
    ∀ (α : Type) (n : Nat) (b : JsBoard α) (m : JsMove),
      ValidBoard n b → ValidMove n m →
      ∃ b', applyMove b m = MoveOutcome.ok b' ∧
        applyMove b' (inverseMove m) = MoveOutcome.ok b := by
  intro α n b m hb hm
  obtain ⟨hcases, line, hline, hidx⟩ := validMove_parts hm
  have hn1 : 1 ≤ n := by omega
  have hinvidx : (inverseMove m).index = some ((line + 1 : Nat) : Int) := hidx
  rcases hcases with ⟨hty, hl | hr⟩ | ⟨hty, hu | hd⟩
  · obtain ⟨b', happ, hvb', hcells⟩ := applyMove_row_left hb hline hty hl hidx
    have hinvdir : jsIsStr (inverseMove m).direction "right" = true := by
      show jsIsStr (if jsIsStr m.direction "left" = true then Js.str "right"
        else if jsIsStr m.direction "right" = true then Js.str "left"
        else if jsIsStr m.direction "up" = true then Js.str "down"
        else if jsIsStr m.direction "down" = true then Js.str "up"
        else m.direction) "right" = true
      rw [if_pos hl]
      rfl
    obtain ⟨b'', happ2, hvb'', hcells2⟩ :=
      applyMove_row_right (m := inverseMove m) hvb' hline hty hinvdir hinvidx
    refine ⟨b', happ, ?_⟩
    rw [happ2]
    congr 1
    apply validBoard_ext hvb'' hb
    intro r c hr hc
    rw [hcells2 r c hr hc]
    by_cases hrl : r = line
    · rw [if_pos hrl, hcells r _ hr (Nat.mod_lt _ (by omega)), if_pos hrl,
        mod_shift_bwd_fwd n c hn1 hc]
    · rw [if_neg hrl, hcells r c hr hc, if_neg hrl]
  · obtain ⟨b', happ, hvb', hcells⟩ := applyMove_row_right hb hline hty hr hidx
    have hlf : jsIsStr m.direction "left" = false := jsIsStr_ne hr (by decide)
    have hinvdir : jsIsStr (inverseMove m).direction "left" = true := by
      show jsIsStr (if jsIsStr m.direction "left" = true then Js.str "right"
        else if jsIsStr m.direction "right" = true then Js.str "left"
        else if jsIsStr m.direction "up" = true then Js.str "down"
        else if jsIsStr m.direction "down" = true then Js.str "up"
        else m.direction) "left" = true
      rw [if_neg (by rw [hlf]; exact Bool.false_ne_true), if_pos hr]
      rfl
    obtain ⟨b'', happ2, hvb'', hcells2⟩ :=
      applyMove_row_left (m := inverseMove m) hvb' hline hty hinvdir hinvidx
    refine ⟨b', happ, ?_⟩
    rw [happ2]
    congr 1
    apply validBoard_ext hvb'' hb
    intro r c hr hc
    rw [hcells2 r c hr hc]
    by_cases hrl : r = line
    · rw [if_pos hrl, hcells r _ hr (Nat.mod_lt _ (by omega)), if_pos hrl,
        mod_shift_fwd_bwd n c hn1 hc]
    · rw [if_neg hrl, hcells r c hr hc, if_neg hrl]
  · obtain ⟨b', happ, hvb', hcells⟩ := applyMove_col_up hb hline hty hu hidx
    have hlf : jsIsStr m.direction "left" = false := jsIsStr_ne hu (by decide)
    have hrf : jsIsStr m.direction "right" = false := jsIsStr_ne hu (by decide)
    have hinvdir : jsIsStr (inverseMove m).direction "down" = true := by
      show jsIsStr (if jsIsStr m.direction "left" = true then Js.str "right"
        else if jsIsStr m.direction "right" = true then Js.str "left"
        else if jsIsStr m.direction "up" = true then Js.str "down"
        else if jsIsStr m.direction "down" = true then Js.str "up"
        else m.direction) "down" = true
      rw [if_neg (by rw [hlf]; exact Bool.false_ne_true),
        if_neg (by rw [hrf]; exact Bool.false_ne_true), if_pos hu]
      rfl
    obtain ⟨b'', happ2, hvb'', hcells2⟩ :=
      applyMove_col_down (m := inverseMove m) hvb' hline hty hinvdir hinvidx
    refine ⟨b', happ, ?_⟩
    rw [happ2]
    congr 1
    apply validBoard_ext hvb'' hb
    intro r c hr hc
    rw [hcells2 r c hr hc]
    by_cases hcl : c = line
    · rw [if_pos hcl, hcells _ c (Nat.mod_lt _ (by omega)) hc, if_pos hcl,
        mod_shift_bwd_fwd n r hn1 hr]
    · rw [if_neg hcl, hcells r c hr hc, if_neg hcl]
  · obtain ⟨b', happ, hvb', hcells⟩ := applyMove_col_down hb hline hty hd hidx
    have hlf : jsIsStr m.direction "left" = false := jsIsStr_ne hd (by decide)
    have hrf : jsIsStr m.direction "right" = false := jsIsStr_ne hd (by decide)
    have huf : jsIsStr m.direction "up" = false := jsIsStr_ne hd (by decide)
    have hinvdir : jsIsStr (inverseMove m).direction "up" = true := by
      show jsIsStr (if jsIsStr m.direction "left" = true then Js.str "right"
        else if jsIsStr m.direction "right" = true then Js.str "left"
        else if jsIsStr m.direction "up" = true then Js.str "down"
        else if jsIsStr m.direction "down" = true then Js.str "up"
        else m.direction) "up" = true
      rw [if_neg (by rw [hlf]; exact Bool.false_ne_true),
        if_neg (by rw [hrf]; exact Bool.false_ne_true),
        if_neg (by rw [huf]; exact Bool.false_ne_true), if_pos hd]
      rfl
    obtain ⟨b'', happ2, hvb'', hcells2⟩ :=
      applyMove_col_up (m := inverseMove m) hvb' hline hty hinvdir hinvidx
    refine ⟨b', happ, ?_⟩
    rw [happ2]
    congr 1
    apply validBoard_ext hvb'' hb
    intro r c hr hc
    rw [hcells2 r c hr hc]
    by_cases hcl : c = line
    · rw [if_pos hcl, hcells _ c (Nat.mod_lt _ (by omega)) hc, if_pos hcl,
        mod_shift_fwd_bwd n r hn1 hr]
    · rw [if_neg hcl, hcells r c hr hc, if_neg hcl]

/-- C7 (counterexample): the claim says the decode path yields a payload only
when every `seq` element is a well-formed Move record. The App.jsx load path
checks only truthiness, the strict size match and `Array.isArray`: a payload
whose single move has the meaningless type `"bogus"` is accepted and its moves
are used, although that move is not well-formed (the replay only survives
because `applyMove` silently ignores such a move). -/
theorem claim_C7_counterexample :
    shareLoad 2 (Js.obj [("size", Js.num 2),
        ("seq", Js.arr [Js.obj [("type", Js.str "bogus"), ("index", Js.num 1),
          ("direction", Js.str "left")]])]) =
      some [⟨Js.str "bogus", some 1, Js.str "left"⟩] ∧
    wellFormedMove 2 ⟨Js.str "bogus", some 1, Js.str "left"⟩ = false :=
  ⟨rfl, rfl⟩

/-- C7 (amended): the requested size is always in `[2,12]` (clamped from the
query), and the decode path accepts a decoded payload only when the decoded
value is truthy, its `size` field is strictly equal to the requested size as a
number, and its `seq` field is an array, in which case the loaded sequence is
exactly that array mapped through the App.jsx move constructor; individual
move records are NOT validated (any structural decode throw, failed check, or
replay throw instead falls back to the deterministic generator). -/
theorem claim_C7_shape_checks :
    ∀ (qs : Option String) (decoded : Js) (seq : List JsMove),
      shareLoad (parseQuerySizeNat qs) decoded = some seq →
      2 ≤ parseQuerySizeNat qs ∧ parseQuerySizeNat qs ≤ 12 ∧
      truthy decoded = true ∧
      getField decoded "size" = Js.num ((parseQuerySizeNat qs : Nat) : Int) ∧
      ∃ l, getField decoded "seq" = Js.arr l ∧ seq = l.map mapSharedMove := by
  intro qs decoded seq h
  obtain ⟨h1, h2⟩ := parseQuerySizeNat_bounds qs
  obtain ⟨ht, hsz, hl⟩ := shareLoad_some h
  exact ⟨h1, h2, ht, hsz, hl⟩

/-- C7 (witness): the amended theorem at a concrete accepted payload — size
parameter absent (so the requested size is the default 6), decoded payload
`\x7bsize: 6, seq: []\x7d`. -/
theorem claim_C7_witness :
    2 ≤ parseQuerySizeNat none ∧ parseQuerySizeNat none ≤ 12 ∧
    truthy (Js.obj [("size", Js.num 6), ("seq", Js.arr [])]) = true ∧
    getField (Js.obj [("size", Js.num 6), ("seq", Js.arr [])]) "size" =
      Js.num ((parseQuerySizeNat none : Nat) : Int) ∧
    ∃ l, getField (Js.obj [("size", Js.num 6), ("seq", Js.arr [])]) "seq" =
      Js.arr l ∧ ([] : List JsMove) = l.map mapSharedMove :=
  claim_C7_shape_checks none (Js.obj [("size", Js.num 6), ("seq", Js.arr [])]) [] rfl

/-- C8 (counterexample): the claim's text-level half says decoding the encoded
form returns the original string for EVERY input string. `toBase64Url` feeds
the string to `btoa`, which throws on any UTF-16 code unit above 255: the
one-character string `"€"` (code unit 8364) is not encodable at all, so no
round trip exists for it. -/
theorem claim_C8_counterexample :
    strUnits "€" = [8364] ∧ toBase64Url (strUnits "€") = none :=
  ⟨rfl, rfl⟩

/-- C8 (amended): `decode(encode(payload))` recovers every valid SharePayload
exactly, and at the text level `fromBase64Url` inverts `toBase64Url` on every
string all of whose UTF-16 code units are bytes (below 256) — the only strings
`btoa` accepts; the serializer's output is ASCII, so every payload text is in
that domain. -/
theorem claim_C8_roundtrip :
    (∀ p : SharePayload, payloadOk p = true →
      ∃ e, encodeShare p = some e ∧ decodeShare e = some p) ∧
    (∀ units : List Nat, (∀ u ∈ units, u < 256) →
      ∃ e, toBase64Url units = some e ∧ fromBase64Url e = some units) :=
  ⟨fun p hok => encodeShare_decodeShare p hok,
   fun units h => toBase64Url_roundTrip units h⟩

/-- C8 (witness): the round trip at a concrete valid payload and a concrete
byte string. -/
theorem claim_C8_witness :
    (payloadOk ⟨2, [⟨"row", 1, "left"⟩]⟩ = true ∧
      ∃ e, encodeShare ⟨2, [⟨"row", 1, "left"⟩]⟩ = some e ∧
        decodeShare e = some ⟨2, [⟨"row", 1, "left"⟩]⟩) ∧
    ((∀ u ∈ [104, 105], u < 256) ∧
      ∃ e, toBase64Url [104, 105] = some e ∧ fromBase64Url e = some [104, 105]) :=
  ⟨⟨by decide, claim_C8_roundtrip.1 ⟨2, [⟨"row", 1, "left"⟩]⟩ (by decide)⟩,
   ⟨by decide, claim_C8_roundtrip.2 [104, 105] (by decide)⟩⟩

/-- C4 (witness): a concrete column-up move and its inverse on a 2×2 board. -/
theorem claim_C4_witness :
    ∃ b', applyMove [[some (1 : Nat), some 2], [some 3, some 4]]
        ⟨Js.str "column", some 2, Js.str "up"⟩ = MoveOutcome.ok b' ∧
      applyMove b' (inverseMove ⟨Js.str "column", some 2, Js.str "up"⟩) =
        MoveOutcome.ok [[some (1 : Nat), some 2], [some 3, some 4]] :=
  claim_C4_inverse_restores Nat 2 [[some 1, some 2], [some 3, some 4]]
    ⟨Js.str "column", some 2, Js.str "up"⟩ (by decide) (by decide)

end RubiksSlider
